import Mathlib

/-!
# vmihailenco/signer: shallow embedding of `signer.go`

Byte sequences are lists of bytes.  A Go slice value is modelled by the bytes it
shows (`elems`) together with the bytes of its backing array that lie between its
length and its capacity (`spare`), because re-slicing in Go is checked against the
capacity.  A run-time panic is the outer `none`; a nil slice is the inner `none`.
The keyed hash (`hash.Hash` after `Reset`, `Write`, `Sum(nil)`) is a function
`H : List Byte → List Byte`.  The wall clock is an explicit parameter.
-/

namespace signer

/-- A byte. -/
abbrev Byte := Fin 256

/-- Go conversion `byte(x)` of a non-negative integer: the low eight bits. -/
def byte (n : Nat) : Byte := ⟨n % 256, Nat.mod_lt _ (by decide)⟩

/-- Reinterpretation of a 64-bit pattern as a Go `int64`. -/
def toInt64 (u : Nat) : Int :=
  if u % 2 ^ 64 < 2 ^ 63 then ((u % 2 ^ 64 : Nat) : Int) else ((u % 2 ^ 64 : Nat) : Int) - 2 ^ 64

/-- Reinterpretation of a Go `int64` as its 64-bit pattern (`uint64(x)`). -/
def toUint64 (x : Int) : Nat := (x % 2 ^ 64).toNat

/-- Wrap-around of an integer result into the `int64` range. -/
def wrapInt64 (x : Int) : Int := toInt64 (toUint64 x)

/-- A Go `[]byte` value: visible bytes and the rest of the backing array up to the capacity. -/
structure Slice where
  elems : List Byte
  spare : List Byte
deriving DecidableEq, Repr

/-- Go `len(s)`. -/
def Slice.len (s : Slice) : Int := (s.elems.length : Int)

/-- Go `cap(s)`. -/
def Slice.cap (s : Slice) : Int := (s.elems.length : Int) + (s.spare.length : Int)

/-- Go `s[lo:hi]`: panics (`none`) unless `0 ≤ lo ≤ hi ≤ cap(s)`. -/
def Slice.slice (s : Slice) (lo hi : Int) : Option Slice :=
  if 0 ≤ lo ∧ lo ≤ hi ∧ hi ≤ s.cap then
    some ⟨((s.elems ++ s.spare).take hi.toNat).drop lo.toNat, (s.elems ++ s.spare).drop hi.toNat⟩
  else none

/-- Constant `itsDangerousEpoch`. -/
def itsDangerousEpoch : Int := 1293840000

/-! ## `encoding/binary` varints -/

/-- Constant `binary.MaxVarintLen64`. -/
def MaxVarintLen64 : Nat := 10

/-- Modelled from Go's `binary.PutUvarint`: writes the base-128 digits of `x` over the
front of `buf`; indexing past the end of `buf` panics (`none`). -/
def PutUvarint : List Byte → Nat → Option (List Byte)
  | [], _ => none
  | _ :: rest, x =>
    if x ≥ 0x80 then
      match PutUvarint rest (x >>> 7) with
      | none => none
      | some r => some (byte (x ||| 0x80) :: r)
    else some (byte x :: rest)

/-- Modelled from Go's `binary.PutVarint`: zig-zag, then `PutUvarint`. -/
def PutVarint (buf : List Byte) (x : Int) : Option (List Byte) :=
  let ux := (toUint64 x <<< 1) % 2 ^ 64
  let ux := if x < 0 then 2 ^ 64 - 1 - ux else ux
  PutUvarint buf ux

/-- Loop of Go's `binary.Uvarint`; arguments are the unread bytes, `x`, `s` and the index `i`. -/
def UvarintLoop : List Byte → Nat → Nat → Nat → Nat × Int
  | [], _, _, _ => (0, 0)
  | b :: rest, x, s, i =>
    if i = MaxVarintLen64 then (0, -((i : Int) + 1))
    else if b.val < 0x80 then
      if i = MaxVarintLen64 - 1 ∧ b.val > 1 then (0, -((i : Int) + 1))
      else (x ||| ((b.val <<< s) % 2 ^ 64), (i : Int) + 1)
    else UvarintLoop rest (x ||| (((b.val &&& 0x7f) <<< s) % 2 ^ 64)) (s + 7) (i + 1)

/-- Modelled from Go's `binary.Uvarint`. -/
def Uvarint (buf : List Byte) : Nat × Int := UvarintLoop buf 0 0 0

/-- Modelled from Go's `binary.Varint`. -/
def Varint (buf : List Byte) : Int × Int :=
  let r := Uvarint buf
  let x : Int := ((r.1 >>> 1 : Nat) : Int)
  (if r.1 &&& 1 ≠ 0 then -x - 1 else x, r.2)

/-! ## `crypto/subtle` -/

/-- Modelled from Go's `subtle.ConstantTimeCompare`. -/
def ConstantTimeCompare (x y : List Byte) : Int :=
  if x.length ≠ y.length then 0
  else
    let v := (List.zip x y).foldl (fun v p => v ||| (p.1.val ^^^ p.2.val)) 0
    if v = 0 then 1 else 0

/-! ## `Signer` -/

/-- Method `(*Signer).signature`. -/
def Signer.signature (H : List Byte → List Byte) (msg : List Byte) : List Byte := H msg

/-- Method `(*Signer).Sign`. -/
def Signer.Sign (H : List Byte → List Byte) (msg : List Byte) : Option (List Byte) :=
  match PutVarint (List.replicate (8 + msg.length) 0) (msg.length : Int) with
  | none => none
  | some b =>
    let b := b.take 8 ++ msg
    some (b ++ Signer.signature H b)

/-- Method `(*Signer).Verify`. -/
def Signer.Verify (H : List Byte → List Byte) (b : Slice) : Option (Option Slice × Bool) :=
  if b.len < 8 then some (none, false)
  else
    match b.slice 0 8 with
    | none => none
    | some head =>
      let length := (Varint head.elems).1
      if length < 0 then some (none, false)
      else
        let length := wrapInt64 (length + 8)
        if length > b.len then some (none, false)
        else
          match b.slice 8 length, b.slice length b.len, b.slice 0 length with
          | some msg, some sig, some signed =>
            let signature2 := Signer.signature H signed.elems
            some (some msg, decide (ConstantTimeCompare sig.elems signature2 = 1))
          | _, _, _ => none

/-! ## `time` -/

/-- Constant `unixToInternal` of Go's `time` package: seconds from year 1 to 1970. -/
def unixToInternal : Int := 62135596800

/-- Modelled from Go's `time.Unix(sec, 0)`: the instant as seconds since year 1, held in an `int64`. -/
def timeUnix (sec : Int) : Int := wrapInt64 (sec + unixToInternal)

/-- Smallest `time.Duration` (nanoseconds). -/
def minDuration : Int := -(2 ^ 63)

/-- Largest `time.Duration` (nanoseconds). -/
def maxDuration : Int := 2 ^ 63 - 1

/-- Modelled from Go's `time.Since(t)`: the clock reads `clock` nanoseconds since the Unix epoch,
`t` is an instant in seconds since year 1; the difference saturates to the `Duration` range. -/
def timeSince (clock : Int) (t : Int) : Int :=
  let d := (clock + unixToInternal * 1000000000) - t * 1000000000
  if d < minDuration then minDuration else if d > maxDuration then maxDuration else d

/-! ## `TimeSigner` -/

/-- Method `(*TimeSigner).Sign`; `clock` is what `time.Now()` reads, in nanoseconds since the
Unix epoch, so that `time.Now().Unix()` is `clock / 10^9`. -/
def TimeSigner.Sign (H : List Byte → List Byte) (clock : Int) (msg : List Byte) :
    Option (List Byte) :=
  match PutVarint (List.replicate (8 + msg.length) 0) (clock / 1000000000) with
  | none => none
  | some b =>
    let b := b.take 8 ++ msg
    Signer.Sign H b

/-- Method `(*TimeSigner).Verify`; `clock` is what `time.Since` reads. -/
def TimeSigner.Verify (H : List Byte → List Byte) (clock : Int) (b : Slice) (dur : Int) :
    Option (Option Slice × Bool) :=
  match Signer.Verify H b with
  | none => none
  | some (msg, ok) =>
    if !ok then some (none, ok)
    else
      let msg := msg.getD ⟨[], []⟩
      match msg.slice 0 8 with
      | none => none
      | some head =>
        let unixTime := (Varint head.elems).1
        if timeSince clock (timeUnix unixTime) > dur then some (none, false)
        else
          match msg.slice 8 msg.len with
          | none => none
          | some rest => some (some rest, true)

/-! ## `encoding/base64` and `bytes` -/

/-- Alphabet of Go's `base64.URLEncoding`. -/
def encodeURL : List Byte :=
  [65, 66, 67, 68, 69, 70, 71, 72, 73, 74, 75, 76, 77, 78, 79, 80, 81, 82, 83, 84, 85, 86, 87, 88,
   89, 90, 97, 98, 99, 100, 101, 102, 103, 104, 105, 106, 107, 108, 109, 110, 111, 112, 113, 114,
   115, 116, 117, 118, 119, 120, 121, 122, 48, 49, 50, 51, 52, 53, 54, 55, 56, 57, 45, 95]

/-- Padding character `=` of `base64.URLEncoding`. -/
def padChar : Byte := 61

/-- Entry `enc.encode[k]` of the alphabet. -/
def encodeChar (k : Nat) : Byte := encodeURL.getD k 0

/-- Entry `enc.decodeMap[c]`: the index of `c` in the alphabet, `0xff` for any other byte. -/
def decodeMap (c : Byte) : Nat :=
  if encodeURL.indexOf c < 64 then encodeURL.indexOf c else 0xff

/-- Modelled from Go's `base64.URLEncoding.Encode` (shifts and masks on the 24-bit group are
written as division and remainder): the padded URL-safe encoding. -/
def URLEncode : List Byte → List Byte
  | a :: b :: c :: rest =>
    let val := a.val * 65536 + b.val * 256 + c.val
    encodeChar (val / 262144 % 64) :: encodeChar (val / 4096 % 64) :: encodeChar (val / 64 % 64)
      :: encodeChar (val % 64) :: URLEncode rest
  | [a, b] =>
    let val := a.val * 65536 + b.val * 256
    [encodeChar (val / 262144 % 64), encodeChar (val / 4096 % 64), encodeChar (val / 64 % 64),
      padChar]
  | [a] =>
    let val := a.val * 65536
    [encodeChar (val / 262144 % 64), encodeChar (val / 4096 % 64), padChar, padChar]
  | [] => []

/-- Modelled from Go's `base64.RawURLEncoding.Encode`: the URL-safe encoding without padding. -/
def RawURLEncode : List Byte → List Byte
  | a :: b :: c :: rest =>
    let val := a.val * 65536 + b.val * 256 + c.val
    encodeChar (val / 262144 % 64) :: encodeChar (val / 4096 % 64) :: encodeChar (val / 64 % 64)
      :: encodeChar (val % 64) :: RawURLEncode rest
  | [a, b] =>
    let val := a.val * 65536 + b.val * 256
    [encodeChar (val / 262144 % 64), encodeChar (val / 4096 % 64), encodeChar (val / 64 % 64)]
  | [a] =>
    let val := a.val * 65536
    [encodeChar (val / 262144 % 64), encodeChar (val / 4096 % 64)]
  | [] => []

/-- Skips line-feed and carriage-return bytes, as the decoder does around padding. -/
def skipNewlines : List Byte → List Byte
  | [] => []
  | c :: rest => if c = 10 ∨ c = 13 then skipNewlines rest else c :: rest

/-- Modelled from Go's `base64.URLEncoding.Decode` (padded, non-strict): the arguments are the
unread input and the 6-bit values gathered for the current quantum; `none` is a
`CorruptInputError`. -/
def URLDecodeLoop : List Byte → List Nat → Option (List Byte)
  | [], dbuf => if dbuf = [] then some [] else none
  | c :: rest, dbuf =>
    if decodeMap c ≠ 0xff then
      match dbuf with
      | [d0, d1, d2] =>
        let val := d0 * 262144 + d1 * 4096 + d2 * 64 + decodeMap c
        match URLDecodeLoop rest [] with
        | none => none
        | some out => some (byte (val / 65536) :: byte (val / 256) :: byte val :: out)
      | _ => URLDecodeLoop rest (dbuf ++ [decodeMap c])
    else if c = 10 ∨ c = 13 then URLDecodeLoop rest dbuf
    else if c ≠ padChar then none
    else
      match dbuf with
      | [d0, d1] =>
        match skipNewlines rest with
        | [] => none
        | c2 :: rest2 =>
          if c2 ≠ padChar then none
          else if skipNewlines rest2 = [] then some [byte ((d0 * 262144 + d1 * 4096) / 65536)]
          else none
      | [d0, d1, d2] =>
        let val := d0 * 262144 + d1 * 4096 + d2 * 64
        if skipNewlines rest = [] then some [byte (val / 65536), byte (val / 256)] else none
      | _ => none

/-- Modelled from Go's `base64.URLEncoding.Decode`. -/
def URLDecode (src : List Byte) : Option (List Byte) := URLDecodeLoop src []

/-- Search of Go's `bytes.LastIndex` downwards from index `i`. -/
def LastIndexFrom (s sep : List Byte) : Nat → Int
  | 0 => if (s.take sep.length) = sep then 0 else -1
  | i + 1 =>
    if ((s.drop (i + 1)).take sep.length) = sep then ((i + 1 : Nat) : Int)
    else LastIndexFrom s sep i

/-- Modelled from Go's `bytes.LastIndex`: index of the last instance of `sep` in `s`, or -1. -/
def LastIndex (s sep : List Byte) : Int :=
  if sep.length > s.length then -1 else LastIndexFrom s sep (s.length - sep.length)

/-! ## `Base64Signer` -/

/-- Loop `for i := len(dst) - 1; i > 0; i-- { if dst[i] == '=' { dst = dst[:i] } }`, entered
at index `i`. -/
def stripLoop : Nat → List Byte → List Byte
  | 0, dst => dst
  | i + 1, dst => stripLoop i (if dst.get? (i + 1) = some padChar then dst.take (i + 1) else dst)

/-- Method `(*Base64Signer).base64Encode`. -/
def Base64Signer.base64Encode (b : List Byte) : List Byte :=
  let dst := URLEncode b
  stripLoop (dst.length - 1) dst

/-- Loop `for i := 0; i < len(b)%4; i++ { b = append(b, '=') }` entered at index `i`; the first
argument bounds the number of iterations. -/
def padLoop : Nat → Nat → List Byte → List Byte
  | 0, _, b => b
  | fuel + 1, i, b => if i < b.length % 4 then padLoop fuel (i + 1) (b ++ [padChar]) else b

/-- Method `(*Base64Signer).base64Decode`; `none` is the returned error.  Four iterations
exhaust the re-padding loop, whose index stays below `len(b) % 4 ≤ 3`. -/
def Base64Signer.base64Decode (b : List Byte) : Option (List Byte) :=
  let b := padLoop 4 0 b
  URLDecode b

/-- Method `(*Base64Signer).signature`. -/
def Base64Signer.signature (H : List Byte → List Byte) (b : List Byte) : List Byte :=
  Base64Signer.base64Encode (H b)

/-- Method `(*Base64Signer).Sign`; `Sep` is the field of that name. -/
def Base64Signer.Sign (H : List Byte → List Byte) (Sep : List Byte) (msg : List Byte) :
    List Byte :=
  let signature := Base64Signer.signature H msg
  let msg := msg ++ Sep
  let msg := msg ++ signature
  msg

/-- Function `splitRight`. -/
def splitRight (b : Slice) (sep : List Byte) : Option (List Slice) :=
  let ind := LastIndex b.elems sep
  if ind ≤ -1 then some [b]
  else
    match b.slice 0 ind, b.slice (ind + 1) b.len with
    | some l, some r => some [l, r]
    | _, _ => none

/-- Method `Base64Signer.Verify`. -/
def Base64Signer.Verify (H : List Byte → List Byte) (Sep : List Byte) (b : Slice) :
    Option (Option Slice × Bool) :=
  match splitRight b Sep with
  | none => none
  | some parts =>
    match parts with
    | [msg, signature] =>
      let signature2 := Base64Signer.signature H msg.elems
      if ConstantTimeCompare signature.elems signature2 ≠ 1 then some (none, false)
      else some (some msg, true)
    | _ => some (none, false)

/-- Value of the field `Sep` set by `NewBase64Signer`: the single byte `.`. -/
def defaultSep : List Byte := [46]

/-! ## `Base64TimeSigner` -/

/-- Loop of `encodeTime`, `for i := uint(0); unixTime > 0; i++`, entered at index `i`; the
first argument bounds the number of iterations. -/
def encodeTimeLoop : Nat → Nat → Int → List Byte → List Byte
  | 0, _, _, b => b
  | fuel + 1, i, unixTime, b =>
    if unixTime > 0 then
      let unixTime := unixTime >>> (i * 8)
      encodeTimeLoop fuel (i + 1) unixTime (b ++ [byte unixTime.toNat])
    else b

/-- Method `(*Base64TimeSigner).encodeTime`.  Five iterations exhaust the loop for every
`int64`: the shifts add up to 80 bits by then. -/
def Base64TimeSigner.encodeTime (unixTime : Int) : List Byte :=
  let unixTime := wrapInt64 (unixTime - itsDangerousEpoch)
  let b := encodeTimeLoop 5 0 unixTime []
  Base64Signer.base64Encode b

/-- Loop of `decodeTime` over the decoded bytes, on the 64-bit pattern of `unixTime`; `n` is
`len(b)` and `i` the index of the next byte. -/
def decodeTimeLoop (n : Nat) : List Byte → Nat → Nat → Nat
  | [], _, u => u
  | v :: rest, i, u => decodeTimeLoop n rest (i + 1) (u ||| ((v.val <<< ((n - 1 - i) * 8)) % 2 ^ 64))

/-- Method `(*Base64TimeSigner).decodeTime`. -/
def Base64TimeSigner.decodeTime (b : List Byte) : Int :=
  match Base64Signer.base64Decode b with
  | none => 0
  | some b =>
    let unixTime := toInt64 (decodeTimeLoop b.length b 0 0)
    wrapInt64 (unixTime + itsDangerousEpoch)

/-- Method `(*Base64TimeSigner).Sign`; `clock` is what `time.Now()` reads, in nanoseconds. -/
def Base64TimeSigner.Sign (H : List Byte → List Byte) (Sep : List Byte) (clock : Int)
    (msg : List Byte) : List Byte :=
  let now := clock / 1000000000
  let msg := msg ++ Sep
  let msg := msg ++ Base64TimeSigner.encodeTime now
  Base64Signer.Sign H Sep msg

/-- Method `(*Base64TimeSigner).Verify`; `clock` is what `time.Since` reads. -/
def Base64TimeSigner.Verify (H : List Byte → List Byte) (Sep : List Byte) (clock : Int)
    (b : Slice) (dur : Int) : Option (Option Slice × Bool) :=
  match Base64Signer.Verify H Sep b with
  | none => none
  | some (msg, ok) =>
    if !ok then some (none, false)
    else
      match splitRight (msg.getD ⟨[], []⟩) Sep with
      | none => none
      | some parts =>
        match parts with
        | [msg, timeBytes] =>
          let unixTime := Base64TimeSigner.decodeTime timeBytes.elems
          if timeSince clock (timeUnix unixTime) > dur then some (none, false)
          else some (some msg, true)
        | _ => some (none, false)

/-- Big-endian value of a byte sequence. -/
def bigEndian (bs : List Byte) : Nat := bs.foldl (fun acc b => acc * 256 + b.val) 0

/-- Unsigned varint encoding in the words of its definition: the base-128 digits of `x`, least
significant first, every byte but the last carrying the continuation bit `0x80`.  The first
argument bounds the number of bytes (ten hold any `uint64`). -/
def uvarintBytes : Nat → Nat → List Byte
  | 0, _ => []
  | fuel + 1, x =>
    if x ≥ 128 then byte (x % 128 + 128) :: uvarintBytes fuel (x / 128) else [byte x]

/-- Signed varint encoding in the words of its definition: zig-zag (`2x` for `x ≥ 0`,
`-2x - 1` for `x < 0`), then the unsigned varint. -/
def varintBytes (x : Int) : List Byte :=
  uvarintBytes 10 (if x < 0 then (-2 * x - 1).toNat else (2 * x).toNat)

/-- Length field of a binary token in the words of the specification: the signed varint of
the message length, followed by zero bytes up to eight bytes. -/
def lengthField (n : Nat) : List Byte :=
  varintBytes (n : Int) ++ List.replicate (8 - (varintBytes (n : Int)).length) 0

/-- Unpadded URL-safe base64 in the words of its definition: the padded encoding with every
trailing `=` removed. -/
def base64urlNopad (x : List Byte) : List Byte := (URLEncode x).rdropWhile (fun c => c = padChar)

/-- Digest of the itsdangerous compatibility test: the twenty bytes whose unpadded URL-safe
encoding is "z_6t_YXT-K_Lki8whMeb9uCpB7o". -/
def itsDangerousDigest : List Byte :=
  [207, 254, 173, 253, 133, 211, 248, 175, 203, 146, 47, 48, 132, 199, 155, 246, 224, 169, 7, 186]

/-- A keyed hash that answers the digest `d` on every input. -/
def constMAC (d : List Byte) (_ : List Byte) : List Byte := d

/-- A keyed hash that answers three zero bytes, whose encoding is "AAAA". -/
def zeroMAC (_ : List Byte) : List Byte := [0, 0, 0]

/-- A small stand-in for a keyed hash, used to run the model on concrete tokens. -/
def demoMAC (msg : List Byte) : List Byte :=
  [byte msg.length, byte (msg.foldl (fun a c => 31 * a + c.val) 7)]

/-! ## Lemmas on bytes and varints -/

theorem byte_val (n : Nat) : (byte n).val = n % 256 := rfl

theorem or_128_mod (x : Nat) : (x ||| 128) % 256 = ((x % 256) ||| 128) % 256 := by
  apply Nat.eq_of_testBit_eq
  intro i
  have h : (256 : Nat) = 2 ^ 8 := by norm_num
  rw [h]
  simp only [Nat.testBit_mod_two_pow, Nat.testBit_or]
  by_cases hi : i < 8 <;> simp [hi]

set_option maxRecDepth 100000 in
theorem byte_cont_aux : ∀ y : Fin 256, 128 ≤ (y.val ||| 128) % 256 ∧ ((y.val ||| 128) % 256) &&& 127 = y.val % 128 := by
  decide

theorem byte_cont (x : Nat) : 128 ≤ (byte (x ||| 0x80)).val ∧ (byte (x ||| 0x80)).val &&& 0x7f = x % 128 := by
  have h := byte_cont_aux ⟨x % 256, Nat.mod_lt _ (by decide)⟩
  simp only [byte_val]
  rw [or_128_mod]
  constructor
  · exact h.1
  · rw [h.2]; simp only []; omega

theorem or_shift_eq_add (acc v s : Nat) (hacc : acc < 2 ^ s) : acc ||| (v <<< s) = acc + v * 2 ^ s := by
  rw [Nat.shiftLeft_eq, Nat.lor_comm, Nat.mul_comm, ← Nat.mul_add_lt_is_or hacc]
  omega

theorem PutUvarint_length : ∀ (buf : List Byte) (x : Nat) (out : List Byte),
    PutUvarint buf x = some out → out.length = buf.length := by
  intro buf
  induction buf with
  | nil => intro x out h; simp [PutUvarint] at h
  | cons b rest ih =>
    intro x out h
    unfold PutUvarint at h
    split at h
    · cases hr : PutUvarint rest (x >>> 7) with
      | none => simp [hr] at h
      | some r =>
        simp [hr] at h
        subst h
        simp [ih _ _ hr]
    · simp at h; subst h; simp

/-- Writing `x < 128^m` into a buffer of at least `m` bytes succeeds, and reading the first `m` bytes
back accumulates `x` above the bits already read. -/
theorem Uvarint_PutUvarint : ∀ (buf : List Byte) (m x acc i : Nat),
    1 ≤ m → m ≤ buf.length → x < 128 ^ m → i + m ≤ 9 → acc < 2 ^ (7 * i) →
    ∃ out, PutUvarint buf x = some out ∧
      (UvarintLoop (out.take m) acc (7 * i) i).1 = acc + x * 2 ^ (7 * i) := by
  intro buf
  induction buf with
  | nil => intro m x acc i h1 h2; simp at h2; omega
  | cons b rest ih =>
    intro m x acc i h1 h2 hx hi hacc
    obtain ⟨m, rfl⟩ : ∃ k, m = k + 1 := ⟨m - 1, by omega⟩
    have hpow : (2:Nat) ^ (7 * i) * 2 ^ (7 * (m + 1)) = 2 ^ (7 * (i + m + 1)) := by
      rw [← pow_add]; congr 1; ring
    have hle : (2:Nat) ^ (7 * (i + m + 1)) ≤ 2 ^ 63 := Nat.pow_le_pow_right (by decide) (by omega)
    have h128 : (128:Nat) ^ (m + 1) = 2 ^ (7 * (m + 1)) := by
      rw [show (128:Nat) = 2 ^ 7 by norm_num, ← pow_mul]
    have hxs : x * 2 ^ (7 * i) < 2 ^ 63 := by
      have : x * 2 ^ (7 * i) < 2 ^ (7 * (m + 1)) * 2 ^ (7 * i) :=
        Nat.mul_lt_mul_of_pos_right (h128 ▸ hx) (by positivity)
      rw [Nat.mul_comm (2 ^ (7 * (m + 1)))] at this
      omega
    unfold PutUvarint
    by_cases hx128 : x ≥ 0x80
    · -- continuation byte
      have hm : 1 ≤ m := by
        rcases Nat.eq_zero_or_pos m with h0 | h0
        · subst h0; simp at hx; omega
        · exact h0
      have hx7 : x >>> 7 < 128 ^ m := by
        rw [Nat.shiftRight_eq_div_pow]
        have : (128:Nat) ^ (m + 1) = 128 ^ m * 128 := pow_succ _ _
        rw [this] at hx
        have h27 : (2:Nat) ^ 7 = 128 := by norm_num
        rw [h27]
        exact Nat.div_lt_of_lt_mul (by rw [Nat.mul_comm]; exact hx)
      have hb := byte_cont x
      have hlow : (x % 128) * 2 ^ (7 * i) < 2 ^ 64 := by
        have : (x % 128) * 2 ^ (7 * i) ≤ x * 2 ^ (7 * i) :=
          Nat.mul_le_mul_right _ (Nat.mod_le _ _)
        omega
      have hacc2 : acc + (x % 128) * 2 ^ (7 * i) < 2 ^ (7 * (i + 1)) := by
        have e : (2:Nat) ^ (7 * (i + 1)) = 128 * 2 ^ (7 * i) := by
          rw [show 7 * (i + 1) = 7 + 7 * i by ring, pow_add]; norm_num
        have : x % 128 < 128 := Nat.mod_lt _ (by decide)
        have : (x % 128) * 2 ^ (7 * i) + 2 ^ (7 * i) ≤ 128 * 2 ^ (7 * i) := by nlinarith
        omega
      obtain ⟨r, hr, hloop⟩ := ih m (x >>> 7) (acc + (x % 128) * 2 ^ (7 * i)) (i + 1) hm
        (by simpa using h2) hx7 (by omega) hacc2
      refine ⟨byte (x ||| 0x80) :: r, ?_, ?_⟩
      · simp [hx128, hr]
      · simp only [List.take_succ_cons]
        unfold UvarintLoop
        have hi10 : ¬ i = MaxVarintLen64 := by simp [MaxVarintLen64]; omega
        have hnot : ¬ (byte (x ||| 0x80)).val < 0x80 := by omega
        simp only [hi10, hnot, if_false]
        rw [hb.2, Nat.shiftLeft_eq, Nat.mod_eq_of_lt hlow, ← Nat.shiftLeft_eq,
          or_shift_eq_add _ _ _ hacc]
        have e7 : 7 * i + 7 = 7 * (i + 1) := by ring
        rw [e7, hloop]
        have e : (2:Nat) ^ (7 * (i + 1)) = 128 * 2 ^ (7 * i) := by
          rw [show 7 * (i + 1) = 7 + 7 * i by ring, pow_add]; norm_num
        rw [e, Nat.shiftRight_eq_div_pow]
        have h27 : (2:Nat) ^ 7 = 128 := by norm_num
        rw [h27]
        have hdm := Nat.div_add_mod x 128
        generalize (2:Nat) ^ (7 * i) = p
        nlinarith
    · -- final byte
      have hxlt : x < 128 := by omega
      refine ⟨byte x :: rest, by simp [hx128], ?_⟩
      simp only [List.take_succ_cons]
      unfold UvarintLoop
      have hi10 : ¬ i = MaxVarintLen64 := by simp [MaxVarintLen64]; omega
      have hbv : (byte x).val = x := by rw [byte_val]; omega
      have hi9 : ¬ (i = MaxVarintLen64 - 1 ∧ (byte x).val > 1) := by
        simp [MaxVarintLen64]; omega
      simp only [hi10, if_false, hbv, show x < 0x80 from hxlt, if_true]
      have : ¬ (i = MaxVarintLen64 - 1 ∧ x > 1) := by rw [hbv] at hi9; exact hi9
      simp only [this, if_false]
      rw [Nat.shiftLeft_eq, Nat.mod_eq_of_lt (by omega), ← Nat.shiftLeft_eq,
        or_shift_eq_add _ _ _ hacc]
      simp [Nat.shiftLeft_eq]

/-- Zig-zag write then read of an `int64` whose varint fits eight bytes. -/
theorem Varint_PutVarint (buf : List Byte) (x : Int) (hbuf : 8 ≤ buf.length)
    (hlo : -(2 ^ 55) ≤ x) (hhi : x < 2 ^ 55) :
    ∃ out, PutVarint buf x = some out ∧ out.length = buf.length ∧
      (Varint (out.take 8)).1 = x := by
  unfold PutVarint
  simp only []
  generalize hux : (if x < 0 then 2 ^ 64 - 1 - (toUint64 x <<< 1) % 2 ^ 64
      else (toUint64 x <<< 1) % 2 ^ 64) = ux
  have hval : (ux : Int) = if x < 0 then -2 * x - 1 else 2 * x := by
    rw [← hux]
    unfold toUint64
    rw [Nat.shiftLeft_eq]
    split <;> omega
  have hlt : ux < 128 ^ 8 := by
    have : (128:Nat) ^ 8 = 2 ^ 56 := by norm_num
    rw [this]
    split at hval <;> omega
  obtain ⟨out, hout, hloop⟩ := Uvarint_PutUvarint buf 8 ux 0 0 (by decide) hbuf hlt (by decide)
    (by decide)
  refine ⟨out, hout, PutUvarint_length _ _ _ hout, ?_⟩
  unfold Varint Uvarint
  simp only [Nat.mul_zero, pow_zero, Nat.mul_one, Nat.zero_add] at hloop
  simp only [hloop, Nat.and_one_is_mod, Nat.shiftRight_eq_div_pow]
  split at hval <;> split <;> omega

/-- The loop of `Uvarint` stays below the bits it has consumed. -/
theorem UvarintLoop_lt : ∀ (l : List Byte) (acc i : Nat),
    i + l.length ≤ 9 → acc < 2 ^ (7 * i) →
    (UvarintLoop l acc (7 * i) i).1 < 2 ^ (7 * (i + l.length)) := by
  intro l
  induction l with
  | nil => intro acc i _ _; simp [UvarintLoop]
  | cons b rest ih =>
    intro acc i hi hacc
    simp only [List.length_cons] at hi ⊢
    have hmono : (2:Nat) ^ (7 * (i + 1)) ≤ 2 ^ (7 * (i + (rest.length + 1))) :=
      Nat.pow_le_pow_right (by decide) (by omega)
    have e : (2:Nat) ^ (7 * (i + 1)) = 2 ^ (7 * i) * 2 ^ 7 := by
      rw [← pow_add]; congr 1
    have hacc1 : acc < 2 ^ (7 * (i + 1)) := by
      rw [e]; have hp : 0 < (2:Nat) ^ (7 * i) := by positivity
      omega
    have hterm : ∀ v : Nat, v < 128 → (v <<< (7 * i)) % 2 ^ 64 < 2 ^ (7 * (i + 1)) := by
      intro v hv
      refine lt_of_le_of_lt (Nat.mod_le _ _) ?_
      rw [Nat.shiftLeft_eq, e]
      have : (2:Nat) ^ 7 = 128 := by norm_num
      rw [this, Nat.mul_comm]
      exact Nat.mul_lt_mul_of_pos_left hv (by positivity)
    unfold UvarintLoop
    have hi10 : ¬ i = MaxVarintLen64 := by simp [MaxVarintLen64]; omega
    simp only [hi10, if_false]
    split
    · split
      · simp
      · exact lt_of_lt_of_le (Nat.or_lt_two_pow hacc1 (hterm _ (by assumption))) hmono
    · have hand : b.val &&& 0x7f < 128 := by
        have : b.val &&& 0x7f ≤ 0x7f := Nat.and_le_right
        omega
      have := ih (acc ||| ((b.val &&& 0x7f) <<< (7 * i)) % 2 ^ 64) (i + 1) (by omega)
        (Nat.or_lt_two_pow hacc1 (hterm _ hand))
      have e2 : 7 * i + 7 = 7 * (i + 1) := by ring
      have e3 : i + 1 + rest.length = i + (rest.length + 1) := by ring
      rw [e2]
      rw [e3] at this
      exact this

/-- A varint read from at most eight bytes lies in `[-2^55, 2^55)`. -/
theorem Varint_bound (l : List Byte) (h : l.length ≤ 8) :
    -(2 ^ 55) ≤ (Varint l).1 ∧ (Varint l).1 < 2 ^ 55 := by
  have h1 := UvarintLoop_lt l 0 0 (by omega) (by decide)
  have h2 : (2:Nat) ^ (7 * (0 + l.length)) ≤ 2 ^ 56 := Nat.pow_le_pow_right (by decide) (by omega)
  unfold Varint Uvarint
  simp only [Nat.mul_zero] at h1
  simp only [Nat.and_one_is_mod, Nat.shiftRight_eq_div_pow]
  generalize (UvarintLoop l 0 0 0).1 = u at h1 ⊢
  split <;> omega

theorem or_eq_zero_iff (a b : Nat) : a ||| b = 0 ↔ a = 0 ∧ b = 0 := by
  constructor
  · intro h
    have hbit : ∀ i, (a ||| b).testBit i = false := by rw [h]; simp
    constructor
    · apply Nat.eq_of_testBit_eq
      intro i
      have := hbit i
      simp only [Nat.testBit_or, Bool.or_eq_false_iff] at this
      simp [this.1]
    · apply Nat.eq_of_testBit_eq
      intro i
      have := hbit i
      simp only [Nat.testBit_or, Bool.or_eq_false_iff] at this
      simp [this.2]
  · rintro ⟨rfl, rfl⟩; rfl

theorem foldl_or_xor_eq_zero : ∀ (l : List (Byte × Byte)) (v : Nat),
    l.foldl (fun v p => v ||| (p.1.val ^^^ p.2.val)) v = 0 ↔ v = 0 ∧ ∀ p ∈ l, p.1 = p.2 := by
  intro l
  induction l with
  | nil => intro v; simp
  | cons p rest ih =>
    intro v
    simp only [List.foldl_cons, ih, or_eq_zero_iff, Nat.xor_eq_zero, List.mem_cons, forall_eq_or_imp,
      Fin.val_inj]
    tauto

theorem zip_all_eq : ∀ (x y : List Byte), x.length = y.length →
    ((∀ p ∈ List.zip x y, p.1 = p.2) ↔ x = y) := by
  intro x
  induction x with
  | nil => intro y h; cases y <;> simp_all
  | cons a xs ih =>
    intro y h
    cases y with
    | nil => simp at h
    | cons c ys =>
      simp only [List.length_cons, Nat.add_right_cancel_iff] at h
      simp only [List.zip_cons_cons, List.mem_cons, forall_eq_or_imp, ih ys h, List.cons.injEq]

/-- The constant-time comparison answers 1 exactly on equal byte sequences. -/
theorem ConstantTimeCompare_eq_one (x y : List Byte) : ConstantTimeCompare x y = 1 ↔ x = y := by
  unfold ConstantTimeCompare
  by_cases hlen : x.length = y.length
  · simp only [hlen, ne_eq, not_true_eq_false, if_false]
    have := foldl_or_xor_eq_zero (List.zip x y) 0
    simp only [true_and] at this
    rw [← zip_all_eq x y hlen, ← this]
    split <;> simp_all
  · simp only [ne_eq, hlen, not_false_eq_true, if_true]
    constructor
    · intro h; simp at h
    · intro h; subst h; simp at hlen

theorem wrapInt64_of_range (x : Int) (h1 : -(2 ^ 63) ≤ x) (h2 : x < 2 ^ 63) : wrapInt64 x = x := by
  unfold wrapInt64 toInt64 toUint64
  split <;> omega

theorem Signer_Verify_short (H : List Byte → List Byte) (b : Slice) (h : b.elems.length < 8) :
    Signer.Verify H b = some (none, false) := by
  unfold Signer.Verify Slice.len
  simp [h]

/-- Complete description of `Verify` on tokens of at least eight bytes. -/
theorem Signer_Verify_long (H : List Byte → List Byte) (b : Slice) (h : 8 ≤ b.elems.length) :
    Signer.Verify H b =
      if (Varint (b.elems.take 8)).1 < 0 then some (none, false)
      else if (Varint (b.elems.take 8)).1 + 8 > (b.elems.length : Int) then some (none, false)
      else
        some (some ⟨(b.elems.take ((Varint (b.elems.take 8)).1 + 8).toNat).drop 8,
                    b.elems.drop ((Varint (b.elems.take 8)).1 + 8).toNat ++ b.spare⟩,
              decide (b.elems.drop ((Varint (b.elems.take 8)).1 + 8).toNat
                = H (b.elems.take ((Varint (b.elems.take 8)).1 + 8).toNat))) := by
  have hb := Varint_bound (b.elems.take 8) (by simp)
  generalize hL : (Varint (b.elems.take 8)).1 = L at hb ⊢
  unfold Signer.Verify
  have hlen : ¬ b.len < 8 := by unfold Slice.len; omega
  have hs : b.slice 0 8 = some ⟨b.elems.take 8, (b.elems ++ b.spare).drop 8⟩ := by
    unfold Slice.slice Slice.cap
    have : (0:Int) ≤ 0 ∧ (0:Int) ≤ 8 ∧ (8:Int) ≤ (b.elems.length : Int) + (b.spare.length : Int) := by
      omega
    simp only [this, and_self, if_true]
    simp [List.take_append_of_le_length h]
  simp only [hlen, if_false, hs, hL]
  by_cases hneg : L < 0
  · simp [hneg]
  · simp only [hneg, if_false]
    rw [wrapInt64_of_range (L + 8) (by omega) (by omega)]
    by_cases hbig : L + 8 > (b.elems.length : Int)
    · simp [hbig, Slice.len]
    · have hbig2 : ¬ L + 8 > b.len := by unfold Slice.len; exact hbig
      simp only [hbig, hbig2, if_false]
      obtain ⟨n, hn⟩ : ∃ n : Nat, L + 8 = (n : Int) := ⟨(L + 8).toNat, by omega⟩
      have hn8 : 8 ≤ n := by omega
      have hnl : n ≤ b.elems.length := by omega
      rw [hn]
      unfold Slice.slice Slice.cap Slice.len
      have c1 : (0:Int) ≤ 8 ∧ (8:Int) ≤ (n:Int) ∧ (n:Int) ≤ (b.elems.length : Int) + (b.spare.length : Int) := by
        omega
      have c2 : (0:Int) ≤ (n:Int) ∧ (n:Int) ≤ (b.elems.length:Int) ∧
          (b.elems.length:Int) ≤ (b.elems.length : Int) + (b.spare.length : Int) := by omega
      have c3 : (0:Int) ≤ 0 ∧ (0:Int) ≤ (n:Int) ∧ (n:Int) ≤ (b.elems.length : Int) + (b.spare.length : Int) := by
        omega
      simp only [c1, c2, c3, and_self, if_true, Int.toNat_ofNat, Int.toNat_zero, List.drop_zero]
      simp only [Signer.signature, ConstantTimeCompare_eq_one, Option.some.injEq, Prod.mk.injEq]
      have e1 : List.take n (b.elems ++ b.spare) = List.take n b.elems :=
        List.take_append_of_le_length hnl
      have e2 : List.drop n (b.elems ++ b.spare) = List.drop n b.elems ++ b.spare :=
        List.drop_append_of_le_length hnl
      have e3 : List.take b.elems.length (b.elems ++ b.spare) = b.elems := List.take_left _ _
      have e4 : Int.toNat (8:Int) = 8 := rfl
      simp only [e1, e2, e3, e4, true_and, and_true]

/-- Shape of a signed token: an eight-byte head that decodes to the message length. -/
theorem Signer_Sign_shape (H : List Byte → List Byte) (m : List Byte) (hm : m.length < 2 ^ 55) :
    ∃ head, head.length = 8 ∧ (Varint head).1 = (m.length : Int) ∧
      Signer.Sign H m = some ((head ++ m) ++ H (head ++ m)) := by
  obtain ⟨out, hout, hlen, hv⟩ := Varint_PutVarint (List.replicate (8 + m.length) 0)
    (m.length : Int) (by simp) (by omega) (by omega)
  refine ⟨out.take 8, ?_, hv, ?_⟩
  · simp [hlen]
  · unfold Signer.Sign Signer.signature
    simp [hout]

/-- Verification of `head ++ m ++ H (head ++ m)` when `head` decodes to the length of `m`. -/
theorem Signer_Verify_framed (H : List Byte → List Byte) (head m spare : List Byte)
    (hh : head.length = 8) (hv : (Varint head).1 = (m.length : Int)) :
    Signer.Verify H ⟨(head ++ m) ++ H (head ++ m), spare⟩
      = some (some ⟨m, H (head ++ m) ++ spare⟩, true) := by
  have h8 : 8 ≤ ((head ++ m) ++ H (head ++ m)).length := by simp [hh]
  rw [Signer_Verify_long H _ h8]
  have ht : List.take 8 ((head ++ m) ++ H (head ++ m)) = head := by
    rw [List.append_assoc, ← hh, List.take_left]
  simp only [ht, hv]
  have e : ((m.length : Int) + 8).toNat = (head ++ m).length := by simp [hh]; omega
  have c1 : ¬ ((m.length : Int) < 0) := by omega
  have c2 : ¬ ((m.length : Int) + 8 > (((head ++ m) ++ H (head ++ m)).length : Int)) := by
    simp [hh]; omega
  simp only [c1, c2, if_false, e, List.take_left, List.drop_left]
  have e2 : List.drop 8 (head ++ m) = m := by rw [← hh, List.drop_left]
  simp [e2]

theorem timeSince_timeUnix (clock t : Int) (h1 : -(2 ^ 55) ≤ t) (h2 : t < 2 ^ 55)
    (hlo : 0 ≤ clock - t * 1000000000) (hhi : clock - t * 1000000000 ≤ maxDuration) :
    timeSince clock (timeUnix t) = clock - t * 1000000000 := by
  unfold timeUnix
  rw [wrapInt64_of_range _ (by unfold unixToInternal; omega) (by unfold unixToInternal; omega)]
  unfold timeSince minDuration
  unfold maxDuration at hhi ⊢
  unfold unixToInternal
  simp only []
  split
  · omega
  · split <;> omega

/-- Shape of a time-stamped token. -/
theorem TimeSigner_Sign_shape (H : List Byte → List Byte) (clock : Int) (m : List Byte)
    (hm : 8 + m.length < 2 ^ 55)
    (h1 : -(2 ^ 55) ≤ clock / 1000000000) (h2 : clock / 1000000000 < 2 ^ 55) :
    ∃ stamp head, stamp.length = 8 ∧ (Varint stamp).1 = clock / 1000000000 ∧
      head.length = 8 ∧ (Varint head).1 = ((stamp ++ m).length : Int) ∧
      TimeSigner.Sign H clock m = some ((head ++ (stamp ++ m)) ++ H (head ++ (stamp ++ m))) := by
  obtain ⟨out, hout, hlen, hv⟩ := Varint_PutVarint (List.replicate (8 + m.length) 0)
    (clock / 1000000000) (by simp) h1 h2
  have hl : (out.take 8).length = 8 := by simp [hlen]
  obtain ⟨head, hh, hhv, hs⟩ := Signer_Sign_shape H (out.take 8 ++ m) (by
    rw [List.length_append, hl]; exact hm)
  refine ⟨out.take 8, head, hl, hv, hh, hhv, ?_⟩
  unfold TimeSigner.Sign
  simp only [hout]
  exact hs

/-! ## Lemmas on the text framer -/

theorem stripLoop_take : ∀ (i : Nat) (dst : List Byte), ∃ k, stripLoop i dst = dst.take k := by
  intro i
  induction i with
  | zero => intro dst; exact ⟨dst.length, by simp [stripLoop]⟩
  | succ i ih =>
    intro dst
    unfold stripLoop
    split
    · obtain ⟨k, hk⟩ := ih (dst.take (i + 1))
      exact ⟨min k (i + 1), by rw [hk, List.take_take]⟩
    · exact ih dst

theorem mem_base64Encode (x : List Byte) (c : Byte) (h : c ∈ Base64Signer.base64Encode x) :
    c ∈ URLEncode x := by
  unfold Base64Signer.base64Encode at h
  obtain ⟨k, hk⟩ := stripLoop_take ((URLEncode x).length - 1) (URLEncode x)
  simp only [hk] at h
  exact List.mem_of_mem_take h

theorem encodeChar_alphabet_aux : ∀ k : Fin 64,
    encodeChar k.val ≠ 46 ∧ encodeChar k.val ≠ padChar ∧ decodeMap (encodeChar k.val) = k.val := by
  decide

theorem encodeChar_mod (k : Nat) :
    encodeChar (k % 64) ≠ 46 ∧ encodeChar (k % 64) ≠ padChar ∧
      decodeMap (encodeChar (k % 64)) = k % 64 :=
  encodeChar_alphabet_aux ⟨k % 64, Nat.mod_lt _ (by decide)⟩

/-- No byte of a padded encoding is the dot. -/
theorem URLEncode_ne_dot : ∀ (x : List Byte) (c : Byte), c ∈ URLEncode x → c ≠ 46 := by
  intro x
  induction x using URLEncode.induct with
  | case1 a b c rest ih =>
    intro d hd
    simp only [URLEncode, List.mem_cons] at hd
    rcases hd with h | h | h | h | h
    · rw [h]; exact (encodeChar_mod _).1
    · rw [h]; exact (encodeChar_mod _).1
    · rw [h]; exact (encodeChar_mod _).1
    · rw [h]; exact (encodeChar_mod _).1
    · exact ih d h
  | case2 a b =>
    intro d hd
    simp only [URLEncode, List.mem_cons, List.mem_singleton, List.not_mem_nil, or_false] at hd
    rcases hd with h | h | h | h
    · rw [h]; exact (encodeChar_mod _).1
    · rw [h]; exact (encodeChar_mod _).1
    · rw [h]; exact (encodeChar_mod _).1
    · rw [h]; decide
  | case3 a =>
    intro d hd
    simp only [URLEncode, List.mem_cons, List.mem_singleton, List.not_mem_nil, or_false] at hd
    rcases hd with h | h | h | h
    · rw [h]; exact (encodeChar_mod _).1
    · rw [h]; exact (encodeChar_mod _).1
    · rw [h]; decide
    · rw [h]; decide
  | case4 => intro d hd; simp [URLEncode] at hd

theorem base64Encode_ne_dot (x : List Byte) : (46 : Byte) ∉ Base64Signer.base64Encode x :=
  fun h => URLEncode_ne_dot x 46 (mem_base64Encode x 46 h) rfl

theorem LastIndexFrom_append (m sig : List Byte) (c : Byte) (hc : c ∉ sig) :
    ∀ k, k ≤ sig.length → LastIndexFrom (m ++ c :: sig) [c] (m.length + k) = (m.length : Int) := by
  intro k
  induction k with
  | zero =>
    intro _
    cases hm : m.length with
    | zero =>
      have : m = [] := List.length_eq_zero.mp hm
      subst this
      simp [LastIndexFrom]
    | succ n =>
      simp only [Nat.add_zero]
      unfold LastIndexFrom
      rw [← hm, List.drop_left]
      simp
  | succ k ih =>
    intro hk
    have e : m.length + (k + 1) = (m.length + k) + 1 := by omega
    rw [e]
    unfold LastIndexFrom
    have hd : List.drop (m.length + k + 1) (m ++ c :: sig) = List.drop k sig := by
      rw [show m.length + k + 1 = m.length + (k + 1) by omega, List.drop_append]
      simp
    rw [hd]
    have hne : ¬ (List.take [c].length (List.drop k sig) = [c]) := by
      intro h
      have hmem : c ∈ List.take [c].length (List.drop k sig) := by rw [h]; simp
      exact hc (List.mem_of_mem_drop (List.mem_of_mem_take hmem))
    simp only [hne, if_false]
    exact ih (by omega)

/-- The last separator of `m ++ [c] ++ sig` is the one shown when `sig` is free of `c`. -/
theorem LastIndex_append (m sig : List Byte) (c : Byte) (hc : c ∉ sig) :
    LastIndex (m ++ c :: sig) [c] = (m.length : Int) := by
  unfold LastIndex
  have h1 : ¬ ([c].length > (m ++ c :: sig).length) := by simp
  simp only [h1, if_false]
  have e : (m ++ c :: sig).length - [c].length = m.length + sig.length := by simp
  rw [e]
  exact LastIndexFrom_append m sig c hc sig.length (le_refl _)

theorem splitRight_append (m sig spare : List Byte) (c : Byte) (hc : c ∉ sig) :
    splitRight ⟨m ++ c :: sig, spare⟩ [c]
      = some [⟨m, c :: sig ++ spare⟩, ⟨sig, spare⟩] := by
  unfold splitRight
  simp only [LastIndex_append m sig c hc]
  have h1 : ¬ ((m.length : Int) ≤ -1) := by omega
  simp only [h1, if_false]
  unfold Slice.slice Slice.cap Slice.len
  have c1 : (0:Int) ≤ 0 ∧ (0:Int) ≤ (m.length : Int) ∧
      (m.length : Int) ≤ ((m ++ c :: sig).length : Int) + (spare.length : Int) := by
    simp; omega
  have c2 : (0:Int) ≤ (m.length : Int) + 1 ∧ (m.length : Int) + 1 ≤ ((m ++ c :: sig).length : Int) ∧
      ((m ++ c :: sig).length : Int) ≤ ((m ++ c :: sig).length : Int) + (spare.length : Int) := by
    simp; omega
  simp only [c1, c2, and_self, if_true, Int.toNat_ofNat, Int.toNat_zero, List.drop_zero]
  have e1 : ((m.length : Int) + 1).toNat = m.length + 1 := by omega
  have e2 : List.take m.length ((m ++ c :: sig) ++ spare) = m := by
    rw [List.append_assoc, List.take_left]
  have e3 : List.drop m.length ((m ++ c :: sig) ++ spare) = c :: sig ++ spare := by
    rw [List.append_assoc, List.drop_left]
  have e4 : List.take (m ++ c :: sig).length ((m ++ c :: sig) ++ spare) = m ++ c :: sig :=
    List.take_left _ _
  have e5 : List.drop (m ++ c :: sig).length ((m ++ c :: sig) ++ spare) = spare :=
    List.drop_left _ _
  have e6 : List.drop (m.length + 1) (m ++ c :: sig) = sig := by
    rw [List.drop_append]; rfl
  simp only [e1, e2, e3, e4, e5, e6]

/-- Text verification of `m ++ [c] ++ sig` under the one-byte separator `c`, for `sig` free
of `c`. -/
theorem Base64Signer_Verify_framed (H : List Byte → List Byte) (m sig spare : List Byte)
    (c : Byte) (hc : c ∉ sig) :
    Base64Signer.Verify H [c] ⟨m ++ c :: sig, spare⟩ =
      if sig = Base64Signer.base64Encode (H m) then some (some ⟨m, c :: sig ++ spare⟩, true)
      else some (none, false) := by
  unfold Base64Signer.Verify
  simp only [splitRight_append m sig spare c hc, Base64Signer.signature, ne_eq,
    ConstantTimeCompare_eq_one]
  split <;> simp_all

/-- The re-padding loop appends `(4 - len % 4) % 4` padding bytes. -/
theorem padLoop_eq (b : List Byte) :
    padLoop 4 0 b = b ++ List.replicate ((4 - b.length % 4) % 4) padChar := by
  have h : b.length % 4 = 0 ∨ b.length % 4 = 1 ∨ b.length % 4 = 2 ∨ b.length % 4 = 3 := by omega
  rcases h with h | h | h | h
  · simp [padLoop, h]
  · have h1 : (b.length + 1) % 4 = 2 := by omega
    have h2 : (b.length + 1 + 1) % 4 = 3 := by omega
    have h3 : (b.length + 1 + 1 + 1) % 4 = 0 := by omega
    simp [padLoop, h, h1, h2, h3, List.replicate]
  · have h1 : (b.length + 1) % 4 = 3 := by omega
    have h2 : (b.length + 1 + 1) % 4 = 0 := by omega
    simp [padLoop, h, h1, h2, List.replicate]
  · have h1 : (b.length + 1) % 4 = 0 := by omega
    simp [padLoop, h, h1, List.replicate]

theorem RawURLEncode_length_mod : ∀ x : List Byte,
    (RawURLEncode x).length % 4 = [0, 2, 3].getD (x.length % 3) 0 := by
  intro x
  induction x using RawURLEncode.induct with
  | case1 a b c rest ih =>
    simp only [RawURLEncode, List.length_cons]
    have e : (rest.length + 1 + 1 + 1) % 3 = rest.length % 3 := by omega
    rw [e, ← ih]; omega
  | case2 a b => simp [RawURLEncode]
  | case3 a => simp [RawURLEncode]
  | case4 => simp [RawURLEncode]

/-- Padding the unpadded encoding gives the padded encoding. -/
theorem padLoop_RawURLEncode : ∀ x : List Byte, padLoop 4 0 (RawURLEncode x) = URLEncode x := by
  intro x
  rw [padLoop_eq]
  induction x using RawURLEncode.induct with
  | case1 a b c rest ih =>
    simp only [RawURLEncode, URLEncode, List.length_cons, List.cons_append, List.cons.injEq,
      true_and]
    have e : (4 - ((RawURLEncode rest).length + 1 + 1 + 1 + 1) % 4) % 4
        = (4 - (RawURLEncode rest).length % 4) % 4 := by omega
    rw [e, ih]
  | case2 a b => simp [RawURLEncode, URLEncode, List.replicate]
  | case3 a => simp [RawURLEncode, URLEncode, List.replicate]
  | case4 => simp [RawURLEncode, URLEncode]

theorem decodeMap_encodeChar (k : Nat) :
    decodeMap (encodeChar (k % 64)) = k % 64 ∧ decodeMap (encodeChar (k % 64)) ≠ 0xff := by
  have h := (encodeChar_mod k).2.2
  refine ⟨h, ?_⟩
  rw [h]
  have : k % 64 < 64 := Nat.mod_lt _ (by decide)
  omega

theorem decodeMap_padChar : decodeMap padChar = 0xff := by decide

/-- Decoding the padded encoding returns the bytes encoded. -/
theorem URLDecodeLoop_URLEncode : ∀ x : List Byte, URLDecodeLoop (URLEncode x) [] = some x := by
  intro x
  induction x using URLEncode.induct with
  | case1 a b c rest ih =>
    have ha := a.isLt
    have hb := b.isLt
    have hc := c.isLt
    simp only [URLEncode]
    generalize hval : a.val * 65536 + b.val * 256 + c.val = val
    have h0 := decodeMap_encodeChar (val / 262144)
    have h1 := decodeMap_encodeChar (val / 4096)
    have h2 := decodeMap_encodeChar (val / 64)
    have h3 := decodeMap_encodeChar val
    simp only [URLDecodeLoop, h0.1, h1.1, h2.1, h3.1, ne_eq, List.nil_append, List.cons_append,
      ih, if_true]
    have n0 : ¬ (val / 262144 % 64 = 255) := by omega
    have n1 : ¬ (val / 4096 % 64 = 255) := by omega
    have n2 : ¬ (val / 64 % 64 = 255) := by omega
    have n3 : ¬ (val % 64 = 255) := by omega
    simp only [n0, n1, n2, n3, not_false_eq_true, if_true, Option.some.injEq, List.cons.injEq,
      and_true]
    refine ⟨?_, ?_, ?_⟩ <;> (apply Fin.ext; simp only [byte]; omega)
  | case2 a b =>
    have ha := a.isLt
    have hb := b.isLt
    simp only [URLEncode]
    generalize hval : a.val * 65536 + b.val * 256 = val
    have h0 := decodeMap_encodeChar (val / 262144)
    have h1 := decodeMap_encodeChar (val / 4096)
    have h2 := decodeMap_encodeChar (val / 64)
    have n0 : ¬ (val / 262144 % 64 = 255) := by omega
    have n1 : ¬ (val / 4096 % 64 = 255) := by omega
    have n2 : ¬ (val / 64 % 64 = 255) := by omega
    have hp : ¬ (padChar = 10 ∨ padChar = 13) := by decide
    simp only [URLDecodeLoop, h0.1, h1.1, h2.1, ne_eq, List.nil_append, List.cons_append,
      n0, n1, n2, not_false_eq_true, if_true, decodeMap_padChar, not_true_eq_false, if_false,
      hp, skipNewlines, Option.some.injEq, List.cons.injEq, and_true]
    refine ⟨?_, ?_⟩ <;> (apply Fin.ext; simp only [byte]; omega)
  | case3 a =>
    have ha := a.isLt
    simp only [URLEncode]
    generalize hval : a.val * 65536 = val
    have h0 := decodeMap_encodeChar (val / 262144)
    have h1 := decodeMap_encodeChar (val / 4096)
    have n0 : ¬ (val / 262144 % 64 = 255) := by omega
    have n1 : ¬ (val / 4096 % 64 = 255) := by omega
    have hp : ¬ (padChar = 10 ∨ padChar = 13) := by decide
    simp only [URLDecodeLoop, h0.1, h1.1, ne_eq, List.nil_append, List.cons_append,
      n0, n1, not_false_eq_true, if_true, decodeMap_padChar, not_true_eq_false, if_false,
      hp, skipNewlines, Option.some.injEq, List.cons.injEq, and_true]
    apply Fin.ext; simp only [byte]; omega
  | case4 => simp [URLEncode, URLDecodeLoop]

/-- The repository decoder inverts the unpadded URL-safe encoding. -/
theorem base64Decode_RawURLEncode (x : List Byte) :
    Base64Signer.base64Decode (RawURLEncode x) = some x := by
  unfold Base64Signer.base64Decode URLDecode
  simp only [padLoop_RawURLEncode, URLDecodeLoop_URLEncode]

theorem decodeTimeLoop_eq (n : Nat) (hn : n ≤ 8) : ∀ (rest : List Byte) (i U : Nat),
    i + rest.length = n →
    decodeTimeLoop n rest i (U * 2 ^ (8 * rest.length))
      = rest.foldl (fun acc b => acc * 256 + b.val) U := by
  intro rest
  induction rest with
  | nil => intro i U _; simp [decodeTimeLoop]
  | cons v rest ih =>
    intro i U hi
    simp only [List.length_cons] at hi
    have hk : rest.length ≤ 7 := by omega
    have hv := v.isLt
    simp only [decodeTimeLoop, List.foldl_cons, List.length_cons]
    have e1 : (n - 1 - i) * 8 = 8 * rest.length := by omega
    have hp8 : (2:Nat) ^ (8 * (rest.length + 1)) = 2 ^ (8 * rest.length) * 256 := by
      rw [show 8 * (rest.length + 1) = 8 * rest.length + 8 by ring, pow_add]; norm_num
    have hple : (2:Nat) ^ (8 * rest.length) ≤ 2 ^ 56 := Nat.pow_le_pow_right (by decide) (by omega)
    have hppos : 0 < (2:Nat) ^ (8 * rest.length) := by positivity
    have hterm : v.val * 2 ^ (8 * rest.length) < 2 ^ (8 * (rest.length + 1)) := by
      rw [hp8, Nat.mul_comm]
      exact Nat.mul_lt_mul_of_pos_left hv hppos
    have hterm64 : v.val * 2 ^ (8 * rest.length) < 2 ^ 64 := by
      have : v.val * 2 ^ (8 * rest.length) ≤ 255 * 2 ^ 56 :=
        Nat.mul_le_mul (by omega) hple
      omega
    rw [e1, Nat.shiftLeft_eq, Nat.mod_eq_of_lt hterm64, Nat.mul_comm U,
      ← Nat.mul_add_lt_is_or hterm U]
    have e2 : 2 ^ (8 * (rest.length + 1)) * U + v.val * 2 ^ (8 * rest.length)
        = (U * 256 + v.val) * 2 ^ (8 * rest.length) := by
      rw [hp8]; ring
    rw [e2]
    exact ih (i + 1) (U * 256 + v.val) (by omega)

theorem decodeTimeLoop_bigEndian (bs : List Byte) (h : bs.length ≤ 8) :
    decodeTimeLoop bs.length bs 0 0 = bigEndian bs := by
  have := decodeTimeLoop_eq bs.length h bs 0 0 (by simp)
  simpa [bigEndian] using this

theorem bigEndian_lt (bs : List Byte) : bigEndian bs < 256 ^ bs.length := by
  unfold bigEndian
  suffices h : ∀ (l : List Byte) (U k : Nat), U < 256 ^ k →
      l.foldl (fun acc b => acc * 256 + b.val) U < 256 ^ (k + l.length) by
    simpa using h bs 0 0 (by simp)
  intro l
  induction l with
  | nil => intro U k hU; simpa using hU
  | cons v rest ih =>
    intro U k hU
    have hv := v.isLt
    have := ih (U * 256 + v.val) (k + 1) (by rw [pow_succ]; omega)
    simpa [List.length_cons, Nat.add_assoc, Nat.add_comm 1] using this

theorem toInt64_of_lt (u : Nat) (h : u < 2 ^ 63) : toInt64 u = (u : Int) := by
  unfold toInt64
  have : u % 2 ^ 64 = u := Nat.mod_eq_of_lt (by omega)
  rw [this]
  split
  · rfl
  · omega

theorem encodeTimeLoop_zero (n i : Nat) (b : List Byte) (x : Int) (hx : x ≤ 0) :
    encodeTimeLoop n i x b = b := by
  cases n with
  | zero => rfl
  | succ n => simp [encodeTimeLoop, not_lt.mpr hx]

/-- Five iterations exhaust the loop of `encodeTime` for every `int64`. -/
theorem encodeTimeLoop_fuel (x : Int) (hx : x < 2 ^ 63) (k : Nat) :
    encodeTimeLoop (5 + k) 0 x [] = encodeTimeLoop 5 0 x [] := by
  have e : 5 + k = k + 1 + 1 + 1 + 1 + 1 := by omega
  rw [e]
  simp only [encodeTimeLoop, Int.shiftRight_eq_div_pow]
  norm_num
  repeat' split
  all_goals first
    | rfl
    | (rw [encodeTimeLoop_zero]; omega)

theorem LastIndexFrom_absent (s : List Byte) (c : Byte) (hc : c ∉ s) :
    ∀ i, LastIndexFrom s [c] i = -1 := by
  intro i
  induction i with
  | zero =>
    unfold LastIndexFrom
    have : ¬ (List.take [c].length s = [c]) := by
      intro h
      have hmem : c ∈ List.take [c].length s := by rw [h]; simp
      exact hc (List.mem_of_mem_take hmem)
    simp only [this, if_false]
  | succ i ih =>
    unfold LastIndexFrom
    have : ¬ (List.take [c].length (List.drop (i + 1) s) = [c]) := by
      intro h
      have hmem : c ∈ List.take [c].length (List.drop (i + 1) s) := by rw [h]; simp
      exact hc (List.mem_of_mem_drop (List.mem_of_mem_take hmem))
    simp only [this, if_false]
    exact ih

/-- Without the separator byte there is no last index. -/
theorem LastIndex_absent (s : List Byte) (c : Byte) (hc : c ∉ s) : LastIndex s [c] = -1 := by
  unfold LastIndex
  split
  · rfl
  · exact LastIndexFrom_absent s c hc _

theorem stripLoop_of_not_mem : ∀ (i : Nat) (dst : List Byte), padChar ∉ dst →
    stripLoop i dst = dst := by
  intro i
  induction i with
  | zero => intro dst _; rfl
  | succ i ih =>
    intro dst h
    unfold stripLoop
    have : ¬ (dst.get? (i + 1) = some padChar) := by
      intro hg
      exact h (List.get?_mem hg)
    simp only [this, if_false]
    exact ih dst h

theorem encodeChar_mem (k : Nat) : encodeChar (k % 64) ∈ encodeURL := by
  have : ∀ j : Fin 64, encodeChar j.val ∈ encodeURL := by decide
  exact this ⟨k % 64, Nat.mod_lt _ (by decide)⟩

/-- Every byte of the unpadded encoding belongs to the URL-safe alphabet. -/
theorem RawURLEncode_alphabet : ∀ (x : List Byte) (c : Byte), c ∈ RawURLEncode x → c ∈ encodeURL := by
  intro x
  induction x using RawURLEncode.induct with
  | case1 a b c rest ih =>
    intro d hd
    simp only [RawURLEncode, List.mem_cons] at hd
    rcases hd with h | h | h | h | h
    · rw [h]; exact encodeChar_mem _
    · rw [h]; exact encodeChar_mem _
    · rw [h]; exact encodeChar_mem _
    · rw [h]; exact encodeChar_mem _
    · exact ih d h
  | case2 a b =>
    intro d hd
    simp only [RawURLEncode, List.mem_cons, List.not_mem_nil, or_false] at hd
    rcases hd with h | h | h
    · rw [h]; exact encodeChar_mem _
    · rw [h]; exact encodeChar_mem _
    · rw [h]; exact encodeChar_mem _
  | case3 a =>
    intro d hd
    simp only [RawURLEncode, List.mem_cons, List.not_mem_nil, or_false] at hd
    rcases hd with h | h
    · rw [h]; exact encodeChar_mem _
    · rw [h]; exact encodeChar_mem _
  | case4 => intro d hd; simp [RawURLEncode] at hd

theorem padChar_not_mem_RawURLEncode (x : List Byte) : padChar ∉ RawURLEncode x := by
  intro h
  have := RawURLEncode_alphabet x padChar h
  revert this
  decide

/-- The padded encoding is the unpadded one followed by at most two padding bytes. -/
theorem URLEncode_eq_Raw_append : ∀ x : List Byte,
    URLEncode x = RawURLEncode x ++ List.replicate ((4 - (RawURLEncode x).length % 4) % 4) padChar := by
  intro x
  rw [← padLoop_eq, padLoop_RawURLEncode]

theorem stripLoop_append_pad (r : List Byte) (h : padChar ∉ r) (k : Nat) (hk : k ≤ 2)
    (hr : k = 0 ∨ 1 ≤ r.length) :
    stripLoop ((r ++ List.replicate k padChar).length - 1) (r ++ List.replicate k padChar) = r := by
  rcases hr with hr | hr
  · subst hr
    simpa using stripLoop_of_not_mem _ r h
  · obtain ⟨n, hn⟩ : ∃ n, r.length = n + 1 := ⟨r.length - 1, by omega⟩
    have hk' : k = 0 ∨ k = 1 ∨ k = 2 := by omega
    rcases hk' with rfl | rfl | rfl
    · simpa using stripLoop_of_not_mem _ r h
    · have e : (r ++ List.replicate 1 padChar).length - 1 = n + 1 := by simp [hn]
      rw [e]
      unfold stripLoop
      have g : (r ++ List.replicate 1 padChar).get? (n + 1) = some padChar := by
        rw [← hn, List.get?_eq_getElem?, List.getElem?_append_right (le_refl _)]; simp
      simp only [g, if_true]
      rw [← hn, List.take_left]
      exact stripLoop_of_not_mem _ r h
    · have e : (r ++ List.replicate 2 padChar).length - 1 = n + 1 + 1 := by simp [hn]
      rw [e]
      unfold stripLoop
      have g : (r ++ List.replicate 2 padChar).get? (n + 1 + 1) = some padChar := by
        rw [← hn, List.get?_eq_getElem?, List.getElem?_append_right (by omega)]; simp [List.replicate]
      simp only [g, if_true]
      have t1 : List.take (n + 1 + 1) (r ++ List.replicate 2 padChar) = r ++ [padChar] := by
        rw [← hn, List.take_append]; simp [List.replicate]
      rw [t1]
      unfold stripLoop
      have g2 : (r ++ [padChar]).get? (n + 1) = some padChar := by
        rw [← hn, List.get?_eq_getElem?, List.getElem?_append_right (le_refl _)]; simp
      simp only [g2, if_true]
      rw [← hn, List.take_left]
      exact stripLoop_of_not_mem _ r h

/-- The repository encoder produces the unpadded URL-safe encoding. -/
theorem base64Encode_eq_Raw (x : List Byte) : Base64Signer.base64Encode x = RawURLEncode x := by
  unfold Base64Signer.base64Encode
  simp only []
  rw [URLEncode_eq_Raw_append]
  apply stripLoop_append_pad _ (padChar_not_mem_RawURLEncode x)
  · have := Nat.mod_lt (RawURLEncode x).length (show 0 < 4 by decide)
    have h2 := RawURLEncode_length_mod x
    have h3 : x.length % 3 < 3 := Nat.mod_lt _ (by decide)
    interval_cases hx : x.length % 3 <;> simp at h2 <;> omega
  · have h2 := RawURLEncode_length_mod x
    have h3 : x.length % 3 < 3 := Nat.mod_lt _ (by decide)
    interval_cases hx : x.length % 3
    · left; simp at h2; omega
    · right; simp at h2; omega
    · right; simp at h2; omega

theorem rdropWhile_append_pad (r : List Byte) (k : Nat) :
    (r ++ List.replicate k padChar).rdropWhile (fun c => c = padChar)
      = r.rdropWhile (fun c => c = padChar) := by
  induction k with
  | zero => simp
  | succ k ih =>
    rw [List.replicate_succ', ← List.append_assoc, List.rdropWhile_concat_pos _ _ _ (by simp)]
    exact ih

/-- The unpadded encodings by construction and by removal of trailing padding agree. -/
theorem base64urlNopad_eq_Raw (x : List Byte) : base64urlNopad x = RawURLEncode x := by
  unfold base64urlNopad
  rw [URLEncode_eq_Raw_append, rdropWhile_append_pad, List.rdropWhile_eq_self_iff]
  intro hl hp
  have hmem : (RawURLEncode x).getLast hl ∈ RawURLEncode x := List.getLast_mem hl
  simp only [decide_eq_true_eq] at hp
  rw [hp] at hmem
  exact padChar_not_mem_RawURLEncode x hmem

theorem base64Encode_eq_nopad (x : List Byte) :
    Base64Signer.base64Encode x = base64urlNopad x := by
  rw [base64Encode_eq_Raw, base64urlNopad_eq_Raw]

set_option maxRecDepth 100000 in
theorem byte_cont_add_aux : ∀ y : Fin 256, (y.val ||| 128) % 256 = y.val % 128 + 128 := by
  decide

theorem byte_cont_add (x : Nat) : byte (x ||| 0x80) = byte (x % 128 + 128) := by
  apply Fin.ext
  simp only [byte_val]
  rw [or_128_mod, byte_cont_add_aux ⟨x % 256, Nat.mod_lt _ (by decide)⟩]
  simp only []
  omega

/-- The buffer writer emits the varint digits and leaves the rest of the buffer alone. -/
theorem PutUvarint_eq_bytes : ∀ (buf : List Byte) (f g x : Nat),
    x < 128 ^ f → x < 128 ^ g → g ≤ buf.length → 1 ≤ g → 1 ≤ f →
    PutUvarint buf x = some (uvarintBytes f x ++ buf.drop (uvarintBytes f x).length) ∧
      (uvarintBytes f x).length ≤ g := by
  intro buf
  induction buf with
  | nil => intro f g x _ _ h1 h2 _; simp at h1; omega
  | cons b rest ih =>
    intro f g x hf hg hlen hg1 hf1
    obtain ⟨f, rfl⟩ : ∃ k, f = k + 1 := ⟨f - 1, by omega⟩
    obtain ⟨g, rfl⟩ : ∃ k, g = k + 1 := ⟨g - 1, by omega⟩
    unfold PutUvarint uvarintBytes
    by_cases hx : x ≥ 128
    · have hx7 : x >>> 7 = x / 128 := by rw [Nat.shiftRight_eq_div_pow]
      have hdf : x / 128 < 128 ^ f := by
        rw [pow_succ] at hf
        exact Nat.div_lt_of_lt_mul (by rw [Nat.mul_comm]; exact hf)
      have hdg : x / 128 < 128 ^ g := by
        rw [pow_succ] at hg
        exact Nat.div_lt_of_lt_mul (by rw [Nat.mul_comm]; exact hg)
      have hg' : 1 ≤ g := by
        rcases Nat.eq_zero_or_pos g with h0 | h0
        · subst h0; simp at hdg; omega
        · exact h0
      have hf' : 1 ≤ f := by
        rcases Nat.eq_zero_or_pos f with h0 | h0
        · subst h0; simp at hdf; omega
        · exact h0
      obtain ⟨h1, h2⟩ := ih f g (x / 128) hdf hdg (by simpa using hlen) hg' hf'
      simp only [ge_iff_le, show (0x80 : Nat) ≤ x from hx, if_true, hx7, h1, hx,
        List.length_cons, List.cons_append, List.drop_succ_cons, byte_cont_add]
      exact ⟨trivial, by omega⟩
    · simp [hx]

theorem uvarintBytes_length (f x : Nat) (h : 1 ≤ f) : 1 ≤ (uvarintBytes f x).length := by
  obtain ⟨f, rfl⟩ : ∃ k, f = k + 1 := ⟨f - 1, by omega⟩
  unfold uvarintBytes
  split <;> simp

/-- Layout of the eight-byte head written by `Sign`. -/
theorem Signer_Sign_head (H : List Byte → List Byte) (m : List Byte) (hm : m.length < 2 ^ 55) :
    (varintBytes (m.length : Int)).length ≤ 8 ∧
    Signer.Sign H m = some ((lengthField m.length ++ m) ++ H (lengthField m.length ++ m)) := by
  have hux : (if (m.length : Int) < 0 then 2 ^ 64 - 1 - (toUint64 (m.length : Int) <<< 1) % 2 ^ 64
      else (toUint64 (m.length : Int) <<< 1) % 2 ^ 64) = 2 * m.length := by
    have : ¬ ((m.length : Int) < 0) := by omega
    simp only [this, if_false]
    unfold toUint64
    rw [Nat.shiftLeft_eq]
    omega
  have hvb : varintBytes (m.length : Int) = uvarintBytes 10 (2 * m.length) := by
    unfold varintBytes
    have : ¬ ((m.length : Int) < 0) := by omega
    simp only [this, if_false]
    congr 1
  have h8 : 2 * m.length < 128 ^ 8 := by
    have : (128 : Nat) ^ 8 = 2 ^ 56 := by norm_num
    omega
  have h10 : 2 * m.length < 128 ^ 10 := by
    have : (128 : Nat) ^ 10 = 2 ^ 70 := by norm_num
    omega
  obtain ⟨hput, hlen⟩ := PutUvarint_eq_bytes (List.replicate (8 + m.length) 0) 10 8
    (2 * m.length) h10 h8 (by simp) (by decide) (by decide)
  refine ⟨hvb ▸ hlen, ?_⟩
  unfold Signer.Sign PutVarint Signer.signature lengthField
  simp only [hux, hput, hvb]
  generalize uvarintBytes 10 (2 * m.length) = D at hlen ⊢
  have ht : List.take 8 (D ++ List.drop D.length (List.replicate (8 + m.length) (0 : Byte)))
      = D ++ List.replicate (8 - D.length) 0 := by
    rw [List.take_append_eq_append_take, List.take_of_length_le hlen]
    simp only [List.drop_replicate, List.take_replicate]
    congr 2
    omega
  rw [ht]

set_option maxRecDepth 100000 in
theorem encodeURL_ranges : ∀ c : Byte, c ∈ encodeURL →
    (65 ≤ c.val ∧ c.val ≤ 90) ∨ (97 ≤ c.val ∧ c.val ≤ 122) ∨ (48 ≤ c.val ∧ c.val ≤ 57) ∨
      c.val = 45 ∨ c.val = 95 := by
  decide

theorem padLoop_stop (f i : Nat) (b : List Byte) (h : ¬ (i < b.length % 4)) :
    padLoop f i b = b := by
  cases f with
  | zero => rfl
  | succ f => simp [padLoop, h]

theorem padLoop_eq_of_fuel (b : List Byte) (f : Nat) :
    padLoop (f + 3) 0 b = b ++ List.replicate ((4 - b.length % 4) % 4) padChar := by
  have h : b.length % 4 = 0 ∨ b.length % 4 = 1 ∨ b.length % 4 = 2 ∨ b.length % 4 = 3 := by omega
  rcases h with h | h | h | h
  · simp [padLoop, h]
  · have h1 : (b.length + 1) % 4 = 2 := by omega
    have h2 : (b.length + 1 + 1) % 4 = 3 := by omega
    have h3 : (b.length + 1 + 1 + 1) % 4 = 0 := by omega
    simp only [padLoop, h, h1, h2, List.length_append, List.length_singleton,
      show 0 < 1 from by decide, show 1 < 2 from by decide, show 2 < 3 from by decide, if_true]
    rw [padLoop_stop _ _ _ (by simp [h3])]
    simp [List.replicate]
  · have h1 : (b.length + 1) % 4 = 3 := by omega
    have h2 : (b.length + 1 + 1) % 4 = 0 := by omega
    simp only [padLoop, h, h1, h2, List.length_append, List.length_singleton,
      show 0 < 2 from by decide, show 1 < 3 from by decide, show ¬ 2 < 0 from by decide,
      if_true, if_false]
    simp [List.replicate]
  · have h1 : (b.length + 1) % 4 = 0 := by omega
    simp only [padLoop, h, h1, List.length_append, List.length_singleton,
      show 0 < 3 from by decide, show ¬ 1 < 0 from by decide, if_true, if_false]
    simp [List.replicate]

theorem take_set_of_le {α : Type} (a : α) {n m : Nat} (l : List α) (h : m ≤ n) :
    (l.set n a).take m = l.take m :=
  List.ext_getElem? fun i => by
    rw [List.getElem?_take, List.getElem?_take]
    split
    · rw [List.getElem?_set_ne (by omega)]
    · rfl

theorem set_ne_self {α : Type} (l : List α) (i : Nat) (v : α)
    (hv : l.get? i ≠ some v) (hi : i < l.length) : l.set i v ≠ l := by
  intro h
  apply hv
  have h2 : (l.set i v).get? i = some v := by
    simp [List.getElem?_set_self hi]
  rw [h] at h2
  exact h2

/-- Expiring verification of a well-formed stamped token reduces to the age test. -/
theorem TimeSigner_Verify_stamped (H : List Byte → List Byte) (stamp head m spare : List Byte)
    (clock dur : Int) (hsl : stamp.length = 8) (hh : head.length = 8)
    (hhv : (Varint head).1 = ((stamp ++ m).length : Int)) :
    TimeSigner.Verify H clock ⟨(head ++ (stamp ++ m)) ++ H (head ++ (stamp ++ m)), spare⟩ dur
      = if timeSince clock (timeUnix (Varint stamp).1) > dur then some (none, false)
        else some (some ⟨m, H (head ++ (stamp ++ m)) ++ spare⟩, true) := by
  unfold TimeSigner.Verify
  rw [Signer_Verify_framed H head (stamp ++ m) spare hh hhv]
  have hslice : Slice.slice ⟨stamp ++ m, H (head ++ (stamp ++ m)) ++ spare⟩ 0 8
      = some ⟨stamp, m ++ (H (head ++ (stamp ++ m)) ++ spare)⟩ := by
    unfold Slice.slice Slice.cap
    have c : (0:Int) ≤ 0 ∧ (0:Int) ≤ 8 ∧ (8:Int) ≤
        ((stamp ++ m).length : Int) + ((H (head ++ (stamp ++ m)) ++ spare).length : Int) := by
      simp [hsl]; omega
    simp only [c, and_self, if_true]
    have e4 : Int.toNat (8:Int) = 8 := rfl
    simp only [e4, Int.toNat_zero, List.drop_zero, List.append_assoc]
    rw [← hsl, List.take_left, List.drop_left]
  have hslice2 : Slice.slice ⟨stamp ++ m, H (head ++ (stamp ++ m)) ++ spare⟩ 8
      (Slice.len ⟨stamp ++ m, H (head ++ (stamp ++ m)) ++ spare⟩)
      = some ⟨m, H (head ++ (stamp ++ m)) ++ spare⟩ := by
    unfold Slice.slice Slice.cap Slice.len
    have c : (0:Int) ≤ 8 ∧ (8:Int) ≤ ((stamp ++ m).length : Int) ∧ ((stamp ++ m).length : Int) ≤
        ((stamp ++ m).length : Int) + ((H (head ++ (stamp ++ m)) ++ spare).length : Int) := by
      simp [hsl]; omega
    simp only [c, and_self, if_true]
    have e4 : Int.toNat (8:Int) = 8 := rfl
    simp only [e4, Int.toNat_ofNat, List.take_left, List.drop_left]
    rw [← hsl, List.drop_left]
  simp only [Bool.not_true, Bool.false_eq_true, if_false, Option.getD_some, hslice, hslice2]

theorem timeSince_pos (clock t : Int) (h1 : -(2 ^ 55) ≤ t) (h2 : t < 2 ^ 55)
    (hlater : t * 1000000000 < clock) : timeSince clock (timeUnix t) > 0 := by
  unfold timeUnix
  rw [wrapInt64_of_range _ (by unfold unixToInternal; omega) (by unfold unixToInternal; omega)]
  unfold timeSince minDuration maxDuration unixToInternal
  simp only []
  split
  · omega
  · split <;> omega

/-- The varint reader does not look beyond the first byte without continuation bit. -/
theorem UvarintLoop_append : ∀ (l r : List Byte) (x s i : Nat),
    (∃ b ∈ l, b.val < 0x80) → UvarintLoop (l ++ r) x s i = UvarintLoop l x s i := by
  intro l
  induction l with
  | nil => intro r x s i h; simp at h
  | cons b rest ih =>
    intro r x s i h
    simp only [List.cons_append]
    unfold UvarintLoop
    split
    · rfl
    · split
      · rfl
      · apply ih
        obtain ⟨c, hc, hlt⟩ := h
        rcases List.mem_cons.mp hc with rfl | hc'
        · contradiction
        · exact ⟨c, hc', hlt⟩

theorem Varint_stamp_prefix (r : List Byte) :
    (Varint ((128 : Byte) :: 196 :: 159 :: 213 :: 12 :: r)).1 = 1700000000 := by
  have h := UvarintLoop_append [128, 196, 159, 213, 12] r 0 0 0 ⟨12, by decide, by decide⟩
  have e : (Varint ((128 : Byte) :: 196 :: 159 :: 213 :: 12 :: r)).1
      = (Varint [128, 196, 159, 213, 12]).1 := by
    unfold Varint Uvarint
    simp only [List.cons_append, List.nil_append] at h
    rw [h]
  rw [e]
  decide

theorem timeSince_epoch_zero (clock dur : Int) (h1 : dur < clock) (h2 : dur < maxDuration) :
    timeSince clock (timeUnix 0) > dur := by
  have e : timeUnix 0 = unixToInternal := by decide
  rw [e]
  unfold timeSince minDuration
  unfold maxDuration at h2 ⊢
  unfold unixToInternal
  simp only []
  split
  · omega
  · split <;> omega

/-! ## Binary framer: properties -/

/-- C1. Binary round trip: for every keyed hash `H` and every message `m` (the empty one
included) whose length fits the eight-byte length field (`len m < 2^55`), `Sign` returns a
token, and `Verify` of that token, whatever spare capacity its slice has, returns a message
whose bytes are `m` together with `ok = true`. -/
theorem Signer_round_trip (H : List Byte → List Byte) (m spare : List Byte)
    (hm : m.length < 2 ^ 55) :
    ∃ t, Signer.Sign H m = some t ∧
      ∃ rest, Signer.Verify H ⟨t, spare⟩ = some (some ⟨m, rest⟩, true) := by
  obtain ⟨head, hh, hv, hs⟩ := Signer_Sign_shape H m hm
  exact ⟨_, hs, _, Signer_Verify_framed H head m spare hh hv⟩

theorem Signer_round_trip_witness :
    ([104, 101, 108, 108, 111] : List Byte).length < 2 ^ 55 ∧
    ∃ t, Signer.Sign demoMAC [104, 101, 108, 108, 111] = some t ∧
      ∃ rest, Signer.Verify demoMAC ⟨t, []⟩ = some (some ⟨[104, 101, 108, 108, 111], rest⟩, true) :=
  ⟨by decide, Signer_round_trip demoMAC [104, 101, 108, 108, 111] [] (by decide)⟩

/-- C3. Binary expiry check with the clock as a parameter: for every keyed hash, message `m`,
signing clock `clock0` (so the stamp is `t0 = clock0 / 10^9` whole Unix seconds), verification
clock `clock` at or after `t0` and duration `dur` (all in nanoseconds), `TimeSigner.Verify` of
the token that `TimeSigner.Sign` produced returns `(m, true)` when `clock - t0 ≤ dur` and
`(nil, false)` when `clock - t0 > dur`.  The other hypotheses are representation ranges: the
stamped payload and the stamp fit their eight-byte varint fields, and the elapsed time is a
`time.Duration`; all three hold whenever both clocks read a non-negative `int64` count of
nanoseconds (the years 1970 to 2262) and the message fits in memory. -/
theorem TimeSigner_expiry (H : List Byte → List Byte) (m spare : List Byte)
    (clock0 clock dur : Int) (hm : 8 + m.length < 2 ^ 55)
    (h1 : -(2 ^ 55) ≤ clock0 / 1000000000) (h2 : clock0 / 1000000000 < 2 ^ 55)
    (hnow : 0 ≤ clock - clock0 / 1000000000 * 1000000000)
    (hrep : clock - clock0 / 1000000000 * 1000000000 ≤ maxDuration) :
    ∃ t, TimeSigner.Sign H clock0 m = some t ∧
      (clock - clock0 / 1000000000 * 1000000000 ≤ dur →
        ∃ rest, TimeSigner.Verify H clock ⟨t, spare⟩ dur = some (some ⟨m, rest⟩, true)) ∧
      (clock - clock0 / 1000000000 * 1000000000 > dur →
        TimeSigner.Verify H clock ⟨t, spare⟩ dur = some (none, false)) := by
  obtain ⟨stamp, head, hsl, hsv, hh, hhv, hs⟩ := TimeSigner_Sign_shape H clock0 m hm h1 h2
  refine ⟨_, hs, ?_, ?_⟩
  all_goals
    intro hd
    unfold TimeSigner.Verify
    rw [Signer_Verify_framed H head (stamp ++ m) spare hh hhv]
    have hsl8 : stamp.length = 8 := hsl
    have hslice : Slice.slice ⟨stamp ++ m, H (head ++ (stamp ++ m)) ++ spare⟩ 0 8
        = some ⟨stamp, m ++ (H (head ++ (stamp ++ m)) ++ spare)⟩ := by
      unfold Slice.slice Slice.cap
      have c : (0:Int) ≤ 0 ∧ (0:Int) ≤ 8 ∧ (8:Int) ≤
          ((stamp ++ m).length : Int) + ((H (head ++ (stamp ++ m)) ++ spare).length : Int) := by
        simp [hsl]; omega
      simp only [c, and_self, if_true]
      have e4 : Int.toNat (8:Int) = 8 := rfl
      simp only [e4, Int.toNat_zero, List.drop_zero, List.append_assoc]
      rw [← hsl8, List.take_left, List.drop_left]
    have hslice2 : Slice.slice ⟨stamp ++ m, H (head ++ (stamp ++ m)) ++ spare⟩ 8
        (Slice.len ⟨stamp ++ m, H (head ++ (stamp ++ m)) ++ spare⟩)
        = some ⟨m, H (head ++ (stamp ++ m)) ++ spare⟩ := by
      unfold Slice.slice Slice.cap Slice.len
      have c : (0:Int) ≤ 8 ∧ (8:Int) ≤ ((stamp ++ m).length : Int) ∧ ((stamp ++ m).length : Int) ≤
          ((stamp ++ m).length : Int) + ((H (head ++ (stamp ++ m)) ++ spare).length : Int) := by
        simp [hsl]; omega
      simp only [c, and_self, if_true]
      have e4 : Int.toNat (8:Int) = 8 := rfl
      simp only [e4, Int.toNat_ofNat, List.take_left, List.drop_left]
      rw [← hsl8, List.drop_left]
    simp only [Bool.not_true, Bool.false_eq_true, if_false, Option.getD_some, hslice, hsv,
      timeSince_timeUnix clock _ h1 h2 hnow hrep, hslice2]
  · have : ¬ (clock - clock0 / 1000000000 * 1000000000 > dur) := by omega
    simp only [this, if_false]
    exact ⟨_, rfl⟩
  · simp only [hd, if_true]

theorem TimeSigner_expiry_witness :
    (8 + ([104, 101, 108, 108, 111] : List Byte).length < 2 ^ 55 ∧
      -(2 ^ 55) ≤ (1700000000123456789 : Int) / 1000000000 ∧
      (1700000000123456789 : Int) / 1000000000 < 2 ^ 55 ∧
      0 ≤ (1700000060000000000 : Int) - 1700000000123456789 / 1000000000 * 1000000000 ∧
      (1700000060000000000 : Int) - 1700000000123456789 / 1000000000 * 1000000000
        ≤ maxDuration) ∧
    ∃ t, TimeSigner.Sign demoMAC 1700000000123456789 [104, 101, 108, 108, 111] = some t ∧
      ((1700000060000000000 : Int) - 1700000000123456789 / 1000000000 * 1000000000
          ≤ 60000000000 →
        ∃ rest, TimeSigner.Verify demoMAC 1700000060000000000 ⟨t, []⟩ 60000000000
          = some (some ⟨[104, 101, 108, 108, 111], rest⟩, true)) ∧
      ((1700000060000000000 : Int) - 1700000000123456789 / 1000000000 * 1000000000
          > 60000000000 →
        TimeSigner.Verify demoMAC 1700000060000000000 ⟨t, []⟩ 60000000000
          = some (none, false)) :=
  ⟨⟨by decide, by decide, by decide, by decide, by decide⟩,
    TimeSigner_expiry demoMAC [104, 101, 108, 108, 111] [] 1700000000123456789
      1700000060000000000 60000000000 (by decide) (by decide) (by decide) (by decide)
      (by decide)⟩

/-- C8. Length-prefix boundary: for every keyed hash and every byte slice `b`, `Verify` returns
normally (no panic), the sum `length + 8` it computes does not overflow `int64`, and the result
is `(nil, false)` whenever `len b < 8`, or the varint decoded from the first eight bytes is
negative, or `8 +` that length exceeds `len b`. -/
theorem Signer_Verify_length_boundary (H : List Byte → List Byte) (b : Slice) :
    (∃ r, Signer.Verify H b = some r) ∧
    wrapInt64 ((Varint (b.elems.take 8)).1 + 8) = (Varint (b.elems.take 8)).1 + 8 ∧
    ((b.elems.length < 8 ∨ (Varint (b.elems.take 8)).1 < 0 ∨
        8 + (Varint (b.elems.take 8)).1 > (b.elems.length : Int)) →
      Signer.Verify H b = some (none, false)) := by
  have hb := Varint_bound (b.elems.take 8) (by simp)
  refine ⟨?_, wrapInt64_of_range _ (by omega) (by omega), ?_⟩
  · by_cases h : b.elems.length < 8
    · exact ⟨_, Signer_Verify_short H b h⟩
    · rw [Signer_Verify_long H b (by omega)]
      split
      · exact ⟨_, rfl⟩
      · split
        · exact ⟨_, rfl⟩
        · exact ⟨_, rfl⟩
  · intro hc
    by_cases h : b.elems.length < 8
    · exact Signer_Verify_short H b h
    · rw [Signer_Verify_long H b (by omega)]
      rcases hc with hc | hc | hc
      · omega
      · simp [hc]
      · split
        · rfl
        · have : (Varint (b.elems.take 8)).1 + 8 > (b.elems.length : Int) := by omega
          simp [this]

theorem Signer_Verify_length_boundary_witness :
    (([10, 0, 0, 0, 0, 0, 0, 0, 0] : List Byte).length < 8 ∨
      (Varint (([10, 0, 0, 0, 0, 0, 0, 0, 0] : List Byte).take 8)).1 < 0 ∨
      8 + (Varint (([10, 0, 0, 0, 0, 0, 0, 0, 0] : List Byte).take 8)).1
        > ((([10, 0, 0, 0, 0, 0, 0, 0, 0] : List Byte).length : Nat) : Int)) ∧
    Signer.Verify demoMAC ⟨[10, 0, 0, 0, 0, 0, 0, 0, 0], []⟩ = some (none, false) :=
  ⟨by decide, (Signer_Verify_length_boundary demoMAC ⟨[10, 0, 0, 0, 0, 0, 0, 0, 0], []⟩).2.2
    (by decide)⟩

/-- C9. Binary verification decision: for every slice `b` with `len b ≥ 8` whose decoded length
`L` satisfies `0 ≤ L` and `8 + L ≤ len b`, `Verify` returns the message `b[8 : 8+L]` with
`ok = true` if and only if the trailing bytes `b[8+L :]` equal `H (b[0 : 8+L])`; in every such
case the message returned is `b[8 : 8+L]` and `ok` is the outcome of that comparison. -/
theorem Signer_Verify_decision (H : List Byte → List Byte) (b : Slice)
    (h8 : 8 ≤ b.elems.length) (hL : 0 ≤ (Varint (b.elems.take 8)).1)
    (hfit : 8 + (Varint (b.elems.take 8)).1 ≤ (b.elems.length : Int)) :
    ((∃ s, Signer.Verify H b = some (some s, true) ∧
          s.elems = (b.elems.take (8 + (Varint (b.elems.take 8)).1).toNat).drop 8) ↔
        b.elems.drop (8 + (Varint (b.elems.take 8)).1).toNat
          = H (b.elems.take (8 + (Varint (b.elems.take 8)).1).toNat)) ∧
    Signer.Verify H b =
      some (some ⟨(b.elems.take (8 + (Varint (b.elems.take 8)).1).toNat).drop 8,
                  b.elems.drop (8 + (Varint (b.elems.take 8)).1).toNat ++ b.spare⟩,
            decide (b.elems.drop (8 + (Varint (b.elems.take 8)).1).toNat
              = H (b.elems.take (8 + (Varint (b.elems.take 8)).1).toNat))) := by
  have hv := Signer_Verify_long H b h8
  have c1 : ¬ (Varint (b.elems.take 8)).1 < 0 := by omega
  have c2 : ¬ (Varint (b.elems.take 8)).1 + 8 > (b.elems.length : Int) := by omega
  simp only [c1, c2, if_false] at hv
  rw [Int.add_comm] at hv
  refine ⟨?_, hv⟩
  rw [hv]
  constructor
  · rintro ⟨s, hs, -⟩
    simpa using (congrArg (fun r => r.map Prod.snd) hs)
  · intro h
    rw [decide_eq_true h]
    exact ⟨_, rfl, rfl⟩

theorem Signer_Verify_decision_witness :
    8 ≤ ([2, 0, 0, 0, 0, 0, 0, 0, 65, 9, 28] : List Byte).length ∧
    Signer.Verify demoMAC ⟨[2, 0, 0, 0, 0, 0, 0, 0, 65, 9, 28], []⟩
      = some (some ⟨[65], [9, 28]⟩, true) :=
  ⟨by decide, Eq.trans (Signer_Verify_decision demoMAC ⟨[2, 0, 0, 0, 0, 0, 0, 0, 65, 9, 28], []⟩
      (by decide) (by decide) (by decide)).2 (by decide)⟩

/-- C10 (behaviour of the code at the failing input). A token whose length field and payload
are well formed but whose trailing bytes are not the MAC is answered with `ok = false` and the
unauthenticated payload, not with a nil message: for every keyed hash with a non-empty digest
on this input, `Verify [2,0,0,0,0,0,0,0,65]` returns the message `[65]` and `false`. -/
theorem Signer_Verify_mismatch_returns_message (H : List Byte → List Byte)
    (hH : H [2, 0, 0, 0, 0, 0, 0, 0, 65] ≠ []) :
    Signer.Verify H ⟨[2, 0, 0, 0, 0, 0, 0, 0, 65], []⟩ = some (some ⟨[65], []⟩, false) := by
  rw [Signer_Verify_long H _ (by decide)]
  have hv : (Varint (List.take 8 ([2, 0, 0, 0, 0, 0, 0, 0, 65] : List Byte))).1 = 1 := by decide
  simp only [hv]
  have : ¬ (([] : List Byte) = H [2, 0, 0, 0, 0, 0, 0, 0, 65]) := fun h => hH h.symm
  simp [this]

theorem Signer_Verify_mismatch_returns_message_witness :
    demoMAC [2, 0, 0, 0, 0, 0, 0, 0, 65] ≠ [] ∧
    Signer.Verify demoMAC ⟨[2, 0, 0, 0, 0, 0, 0, 0, 65], []⟩ = some (some ⟨[65], []⟩, false) :=
  ⟨by decide, Signer_Verify_mismatch_returns_message demoMAC (by decide)⟩

/-! ## Text framer and timestamp codec: properties -/

/-- C2. Text round trip with the default separator: for every keyed hash and every message
`m` (empty, or containing dots), `Verify (Sign m)` returns a message whose bytes are `m`
together with `ok = true`; the split lands on the separator that `Sign` inserted because
the encoded signature contains no dot. -/
theorem Base64Signer_round_trip (H : List Byte → List Byte) (m spare : List Byte) :
    (∃ rest, Base64Signer.Verify H defaultSep ⟨Base64Signer.Sign H defaultSep m, spare⟩
        = some (some ⟨m, rest⟩, true)) ∧
    LastIndex (Base64Signer.Sign H defaultSep m) defaultSep = (m.length : Int) := by
  have hs : Base64Signer.Sign H defaultSep m
      = m ++ (46 : Byte) :: Base64Signer.base64Encode (H m) := by
    simp [Base64Signer.Sign, Base64Signer.signature, defaultSep]
  rw [hs]
  unfold defaultSep
  have hv := Base64Signer_Verify_framed H m (Base64Signer.base64Encode (H m)) spare 46
    (base64Encode_ne_dot (H m))
  simp only [if_true] at hv
  exact ⟨⟨_, hv⟩, LastIndex_append m _ 46 (base64Encode_ne_dot (H m))⟩

/-- C4 (behaviour of the code at the failing input). A text token signed for "hello" one second
after the fixed epoch and verified ten seconds later with a maximum age of five seconds is
accepted, for every keyed hash: `encodeTime` writes the offset 1 as the bytes 01 00, which
`decodeTime` reads as 256, so the token seems to come from the future. -/
theorem Base64TimeSigner_accepts_expired (H : List Byte → List Byte) (spare : List Byte) :
    ∃ rest, Base64TimeSigner.Verify H defaultSep 1293840011000000000
        ⟨Base64TimeSigner.Sign H defaultSep 1293840001000000000 [104, 101, 108, 108, 111], spare⟩
        5000000000
      = some (some ⟨[104, 101, 108, 108, 111], rest⟩, true) := by
  have hs : Base64TimeSigner.Sign H defaultSep 1293840001000000000 [104, 101, 108, 108, 111]
      = ([104, 101, 108, 108, 111] ++ (46 : Byte) :: [65, 81, 65]) ++ (46 : Byte) ::
          Base64Signer.base64Encode (H [104, 101, 108, 108, 111, 46, 65, 81, 65]) := by
    have he : Base64TimeSigner.encodeTime 1293840001 = [65, 81, 65] := by decide
    simp [Base64TimeSigner.Sign, Base64Signer.Sign, Base64Signer.signature, defaultSep, he]
  rw [hs]
  unfold Base64TimeSigner.Verify defaultSep
  have hv := Base64Signer_Verify_framed H ([104, 101, 108, 108, 111] ++ (46 : Byte) :: [65, 81, 65])
    (Base64Signer.base64Encode (H [104, 101, 108, 108, 111, 46, 65, 81, 65])) spare 46
    (base64Encode_ne_dot _)
  have hm : ([104, 101, 108, 108, 111] ++ (46 : Byte) :: [65, 81, 65] : List Byte)
      = [104, 101, 108, 108, 111, 46, 65, 81, 65] := rfl
  simp only [hm, if_true] at hv
  simp only [hm, hv, Bool.not_true, Bool.false_eq_true, if_false, Option.getD_some]
  have hsplit := splitRight_append [104, 101, 108, 108, 111] [65, 81, 65]
    ((46 : Byte) :: Base64Signer.base64Encode (H [104, 101, 108, 108, 111, 46, 65, 81, 65])
      ++ spare) 46 (by decide)
  have hm2 : ([104, 101, 108, 108, 111] ++ (46 : Byte) :: [65, 81, 65] : List Byte)
      = [104, 101, 108, 108, 111, 46, 65, 81, 65] := rfl
  rw [hm2] at hsplit
  simp only [hsplit]
  have ht : ¬ (timeSince 1293840011000000000
      (timeUnix (Base64TimeSigner.decodeTime [65, 81, 65])) > 5000000000) := by decide
  simp only [ht, if_false]
  exact ⟨_, rfl⟩

/-- C5 (behaviour of the code at the failing input). Decoding what `encodeTime` produced for
the Unix time 1359638994 gives 2669769088: the codec does not return the time it was given. -/
theorem encodeTime_decodeTime_lossy :
    Base64TimeSigner.decodeTime (Base64TimeSigner.encodeTime 1359638994) = 2669769088 := by
  decide

/-- C6 (behaviour of the code at the failing input). For the Unix time 1359638994, whose
offset from the epoch is 0x03EC0352, the loop of `encodeTime` collects the bytes 52 03 03 00
and the result is "UgMDAA", whereas the unpadded URL-safe encoding of the minimal big-endian
bytes 03 EC 03 52 is "A-wDUg". -/
theorem encodeTime_format_mismatch :
    encodeTimeLoop 5 0 (1359638994 - itsDangerousEpoch) [] = [82, 3, 3, 0] ∧
    Base64TimeSigner.encodeTime 1359638994 = [85, 103, 77, 68, 65, 65] ∧
    RawURLEncode [3, 236, 3, 82] = [65, 45, 119, 68, 85, 103] := by
  decide

/-- C7. Timestamp decoding: for every byte sequence `bs` of at most eight bytes whose
big-endian value `v` is below `2^63 - 1293840000`, `decodeTime` of the unpadded URL-safe
base64 encoding of `bs` is `v + 1293840000`; in particular `decodeTime "A-wDUg"` is
1359638994 and the empty input decodes to 1293840000. -/
theorem decodeTime_big_endian (bs : List Byte) (hlen : bs.length ≤ 8)
    (hv : (bigEndian bs : Int) < 2 ^ 63 - 1293840000) :
    Base64TimeSigner.decodeTime (RawURLEncode bs) = (bigEndian bs : Int) + 1293840000 ∧
    Base64TimeSigner.decodeTime [65, 45, 119, 68, 85, 103] = 1359638994 ∧
    Base64TimeSigner.decodeTime [] = 1293840000 := by
  refine ⟨?_, by decide, by decide⟩
  unfold Base64TimeSigner.decodeTime
  simp only [base64Decode_RawURLEncode, decodeTimeLoop_bigEndian bs hlen]
  rw [toInt64_of_lt _ (by omega)]
  unfold itsDangerousEpoch
  exact wrapInt64_of_range _ (by omega) (by omega)

theorem decodeTime_big_endian_witness :
    (([3, 236, 3, 82] : List Byte).length ≤ 8 ∧
      ((bigEndian [3, 236, 3, 82] : Nat) : Int) < 2 ^ 63 - 1293840000) ∧
    Base64TimeSigner.decodeTime (RawURLEncode [3, 236, 3, 82]) = 1359638994 :=
  ⟨⟨by decide, by decide⟩,
    Eq.trans (decodeTime_big_endian [3, 236, 3, 82] (by decide) (by decide)).1 (by decide)⟩

/-- C11. Text verification decision for a one-byte separator `c`: a token without `c` is
answered `(nil, false)`; a token `msg ++ [c] ++ sig` whose shown separator is the last one
(`sig` is free of `c`) is answered `(msg, true)` when `sig` is the unpadded URL-safe base64
encoding of `H msg`, and `(nil, false)` when it is not. -/
theorem Base64Signer_Verify_decision (H : List Byte → List Byte) (c : Byte) (b : Slice) :
    (c ∉ b.elems → Base64Signer.Verify H [c] b = some (none, false)) ∧
    (∀ msg sig, b.elems = msg ++ c :: sig → c ∉ sig →
      (sig = base64urlNopad (H msg) →
        Base64Signer.Verify H [c] b = some (some ⟨msg, c :: sig ++ b.spare⟩, true)) ∧
      (sig ≠ base64urlNopad (H msg) → Base64Signer.Verify H [c] b = some (none, false))) := by
  constructor
  · intro hc
    unfold Base64Signer.Verify splitRight
    simp [LastIndex_absent b.elems c hc]
  · intro msg sig hb hc
    have hv := Base64Signer_Verify_framed H msg sig b.spare c hc
    rw [base64Encode_eq_nopad] at hv
    have hb2 : b = ⟨msg ++ c :: sig, b.spare⟩ := by
      cases b; simp only [Slice.mk.injEq, and_true]; exact hb
    rw [← hb2] at hv
    constructor
    · intro h; rw [hv]; simp [h]
    · intro h; rw [hv]; simp [h]

theorem Base64Signer_Verify_decision_witness :
    ((46 : Byte) ∉ ([104, 105] : List Byte) ∧
      Base64Signer.Verify demoMAC [46] ⟨[104, 105], []⟩ = some (none, false)) ∧
    ((46 : Byte) ∉ ([65, 95, 119] : List Byte) ∧
      base64urlNopad (demoMAC [104, 46, 105]) = [65, 95, 119] ∧
      Base64Signer.Verify demoMAC [46] ⟨[104, 46, 105, 46, 65, 95, 119], []⟩
        = some (some ⟨[104, 46, 105], [46, 65, 95, 119]⟩, true)) :=
  ⟨⟨by decide, (Base64Signer_Verify_decision demoMAC 46 ⟨[104, 105], []⟩).1 (by decide)⟩,
   ⟨by decide, by decide,
    ((Base64Signer_Verify_decision demoMAC 46 ⟨[104, 46, 105, 46, 65, 95, 119], []⟩).2
      [104, 46, 105] [65, 95, 119] rfl (by decide)).1 (by decide)⟩⟩

/-- C12. Binary token layout: for every keyed hash and every message `m` with
`len m < 2^55`, `Sign m` succeeds and equals `F ++ m ++ H (F ++ m)`, where `F` is exactly
eight bytes, the signed varint of `len m` followed by zero bytes (`[2 * len m, 0, ..., 0]` when
`len m < 64`); hence the token has `8 + len m + len (H (F ++ m))` bytes, which is
`8 + len m + k` for a hash of digest size `k`. -/
theorem Signer_Sign_layout (H : List Byte → List Byte) (m : List Byte) (hm : m.length < 2 ^ 55) :
    (lengthField m.length).length = 8 ∧
    Signer.Sign H m = some ((lengthField m.length ++ m) ++ H (lengthField m.length ++ m)) ∧
    (m.length < 64 → lengthField m.length = [byte (2 * m.length), 0, 0, 0, 0, 0, 0, 0]) ∧
    (∀ t, Signer.Sign H m = some t →
      t.length = 8 + m.length + (H (lengthField m.length ++ m)).length ∧
      ∀ k, (∀ x, (H x).length = k) → t.length = 8 + m.length + k) := by
  obtain ⟨hlen, hsign⟩ := Signer_Sign_head H m hm
  have hF : (lengthField m.length).length = 8 := by
    unfold lengthField
    rw [List.length_append, List.length_replicate]
    omega
  refine ⟨hF, hsign, ?_, ?_⟩
  · intro h64
    unfold lengthField varintBytes
    have hneg : ¬ ((m.length : Int) < 0) := by omega
    have hv : (2 * (m.length : Int)).toNat = 2 * m.length := by omega
    have hsmall : ¬ (2 * m.length ≥ 128) := by omega
    simp only [hneg, if_false, hv, uvarintBytes, hsmall]
    rfl
  · intro t ht
    rw [hsign] at ht
    have := Option.some.inj ht
    subst this
    refine ⟨by simp [hF]; omega, ?_⟩
    intro k hk
    simp [hF, hk]; omega

theorem Signer_Sign_layout_witness :
    ([104, 101, 108, 108, 111] : List Byte).length < 2 ^ 55 ∧
    Signer.Sign demoMAC [104, 101, 108, 108, 111]
      = some [10, 0, 0, 0, 0, 0, 0, 0, 104, 101, 108, 108, 111, 13, 53] :=
  ⟨by decide,
    Eq.trans (Signer_Sign_layout demoMAC [104, 101, 108, 108, 111] (by decide)).2.1 (by decide)⟩

/-- C13. Text token layout: for every keyed hash, separator and message,
`Sign m = m ++ Sep ++ base64url_nopad (H m)`, where `base64url_nopad` is the padded URL-safe
encoding with every trailing `=` removed, so the signature part holds only `A-Z`, `a-z`, `0-9`,
`-` and `_`; and when `H "hello"` is the digest of the itsdangerous test, `Sign "hello"` with the
default separator is "hello.z_6t_YXT-K_Lki8whMeb9uCpB7o". -/
theorem Base64Signer_Sign_layout (H : List Byte → List Byte) (Sep m : List Byte) :
    Base64Signer.Sign H Sep m = m ++ Sep ++ base64urlNopad (H m) ∧
    (∀ c ∈ base64urlNopad (H m),
      (65 ≤ c.val ∧ c.val ≤ 90) ∨ (97 ≤ c.val ∧ c.val ≤ 122) ∨ (48 ≤ c.val ∧ c.val ≤ 57) ∨
        c.val = 45 ∨ c.val = 95) ∧
    (H [104, 101, 108, 108, 111] = itsDangerousDigest →
      Base64Signer.Sign H defaultSep [104, 101, 108, 108, 111]
        = [104, 101, 108, 108, 111, 46, 122, 95, 54, 116, 95, 89, 88, 84, 45, 75, 95, 76, 107,
           105, 56, 119, 104, 77, 101, 98, 57, 117, 67, 112, 66, 55, 111]) := by
  have hs : ∀ (S x : List Byte), Base64Signer.Sign H S x = x ++ S ++ base64urlNopad (H x) := by
    intro S x
    simp only [Base64Signer.Sign, Base64Signer.signature, base64Encode_eq_nopad]
  refine ⟨hs Sep m, ?_, ?_⟩
  · intro c hc
    rw [base64urlNopad_eq_Raw] at hc
    exact encodeURL_ranges c (RawURLEncode_alphabet _ c hc)
  · intro hd
    rw [hs, hd]
    decide

theorem Base64Signer_Sign_layout_witness :
    constMAC itsDangerousDigest [104, 101, 108, 108, 111] = itsDangerousDigest ∧
    Base64Signer.Sign (constMAC itsDangerousDigest) defaultSep [104, 101, 108, 108, 111]
      = [104, 101, 108, 108, 111, 46, 122, 95, 54, 116, 95, 89, 88, 84, 45, 75, 95, 76, 107,
         105, 56, 119, 104, 77, 101, 98, 57, 117, 67, 112, 66, 55, 111] :=
  ⟨rfl, (Base64Signer_Sign_layout (constMAC itsDangerousDigest) defaultSep
    [104, 101, 108, 108, 111]).2.2 rfl⟩

/-- C19. Base64 helper round trip: for every byte sequence `x`,
`base64Decode (base64Encode x)` succeeds with `x`, where `base64Encode x` is the padded URL-safe
encoding with the trailing `=` removed and `base64Decode` pads its input to a multiple of four
before it decodes. -/
theorem base64_round_trip (x : List Byte) :
    Base64Signer.base64Decode (Base64Signer.base64Encode x) = some x ∧
    Base64Signer.base64Encode x = base64urlNopad x ∧
    (∀ b, Base64Signer.base64Decode b
      = URLDecode (b ++ List.replicate ((4 - b.length % 4) % 4) padChar)) := by
  refine ⟨?_, base64Encode_eq_nopad x, ?_⟩
  · rw [base64Encode_eq_Raw]
    exact base64Decode_RawURLEncode x
  · intro b
    unfold Base64Signer.base64Decode
    simp only [padLoop_eq]

/-- C20. Re-padding loop of `base64Decode`: for every input `b` of length `n`, the loop, whose
bound `len(b) % 4` is read again after every append, stops within three iterations having
appended exactly `(4 - n % 4) % 4` padding bytes; its guard is false on exit and the length
handed to the decoder is a multiple of four. -/
theorem padLoop_terminates (b : List Byte) (fuel : Nat) (h : 3 ≤ fuel) :
    padLoop fuel 0 b = b ++ List.replicate ((4 - b.length % 4) % 4) padChar ∧
    (padLoop fuel 0 b).length = b.length + (4 - b.length % 4) % 4 ∧
    (padLoop fuel 0 b).length % 4 = 0 ∧
    ¬ ((4 - b.length % 4) % 4 < (padLoop fuel 0 b).length % 4) := by
  obtain ⟨f, rfl⟩ : ∃ f, fuel = f + 3 := ⟨fuel - 3, by omega⟩
  have e := padLoop_eq_of_fuel b f
  have hl : (padLoop (f + 3) 0 b).length = b.length + (4 - b.length % 4) % 4 := by
    rw [e, List.length_append, List.length_replicate]
  refine ⟨e, hl, ?_, ?_⟩
  · rw [hl]; omega
  · rw [hl]; omega

theorem padLoop_terminates_witness :
    3 ≤ 4 ∧ padLoop 4 0 [65, 81] = [65, 81, 61, 61] :=
  ⟨by decide, Eq.trans (padLoop_terminates [65, 81] 4 (by decide)).1 (by decide)⟩

/-- C18 (counterexample). With the separator `A`, which belongs to the base64 alphabet, and a
keyed hash whose digest encodes to "AAAA", the token for "hello" is "helloAAAAA"; the split
lands inside the signature and verification fails. -/
theorem Base64Signer_alphabet_separator_fails :
    Base64Signer.Sign zeroMAC [65] [104, 101, 108, 108, 111]
      = [104, 101, 108, 108, 111, 65, 65, 65, 65, 65] ∧
    Base64Signer.Verify zeroMAC [65] ⟨Base64Signer.Sign zeroMAC [65] [104, 101, 108, 108, 111], []⟩
      = some (none, false) := by
  decide

/-- C18 (amended). Text round trip for every one-byte separator outside the 64 characters of
the URL-safe base64 alphabet: for every keyed hash and every message `m`,
`Verify (Sign m)` returns a message whose bytes are `m` together with `ok = true`. -/
theorem Base64Signer_round_trip_any_separator (H : List Byte → List Byte) (c : Byte)
    (m spare : List Byte) (hc : c ∉ encodeURL) :
    ∃ rest, Base64Signer.Verify H [c] ⟨Base64Signer.Sign H [c] m, spare⟩
      = some (some ⟨m, rest⟩, true) := by
  have hs : Base64Signer.Sign H [c] m = m ++ c :: Base64Signer.base64Encode (H m) := by
    simp [Base64Signer.Sign, Base64Signer.signature]
  have hnot : c ∉ Base64Signer.base64Encode (H m) := by
    rw [base64Encode_eq_Raw]
    intro h
    exact hc (RawURLEncode_alphabet _ c h)
  rw [hs]
  have hv := Base64Signer_Verify_framed H m (Base64Signer.base64Encode (H m)) spare c hnot
  simp only [if_true] at hv
  exact ⟨_, hv⟩

theorem Base64Signer_round_trip_any_separator_witness :
    (61 : Byte) ∉ encodeURL ∧
    ∃ rest, Base64Signer.Verify zeroMAC [61]
        ⟨Base64Signer.Sign zeroMAC [61] [104, 101, 108, 108, 111], []⟩
      = some (some ⟨[104, 101, 108, 108, 111], rest⟩, true) :=
  ⟨by decide, Base64Signer_round_trip_any_separator zeroMAC 61 [104, 101, 108, 108, 111] []
    (by decide)⟩

/-- C15. Binary tamper detection: for every keyed hash of fixed digest size `k`, every message
`m` (with `len m < 2^55`) and every token `t'` that differs from `t = Sign m` in exactly the
byte at position `i`, `Verify t'` returns normally, and if it answers `ok = true` then the
change lies outside the MAC bytes, the length field still decodes to `len m`, and `H` takes
the same value on the two distinct arguments `t'[0 : 8 + len m]` and `t[0 : 8 + len m]`; in
particular a change inside the MAC bytes is answered `ok = false`. -/
theorem Signer_tamper_detection (H : List Byte → List Byte) (k : Nat)
    (hk : ∀ x, (H x).length = k) (m spare t : List Byte) (hm : m.length < 2 ^ 55)
    (ht : Signer.Sign H m = some t) (i : Nat) (v : Byte) (hi : i < t.length)
    (hv : t.get? i ≠ some v) :
    ∃ s ok, Signer.Verify H ⟨t.set i v, spare⟩ = some (s, ok) ∧
      (ok = true →
        i < 8 + m.length ∧
        (Varint ((t.set i v).take 8)).1 = (m.length : Int) ∧
        H ((t.set i v).take (8 + m.length)) = H (t.take (8 + m.length)) ∧
        (t.set i v).take (8 + m.length) ≠ t.take (8 + m.length)) ∧
      (8 + m.length ≤ i → ok = false) := by
  obtain ⟨head, hh, hhv, hs⟩ := Signer_Sign_shape H m hm
  rw [hs] at ht
  have htt := Option.some.inj ht
  have htlen : t.length = 8 + m.length + k := by
    rw [← htt]; simp [hh, hk]; omega
  have htake : t.take (8 + m.length) = head ++ m := by
    rw [← htt, ← hh, ← List.length_append, List.take_left]
  have hdrop : t.drop (8 + m.length) = H (head ++ m) := by
    rw [← htt, ← hh, ← List.length_append, List.drop_left]
  have hne : t.set i v ≠ t := set_ne_self t i v hv hi
  have hl8 : 8 ≤ (t.set i v).length := by rw [List.length_set]; omega
  have hlong := Signer_Verify_long H ⟨t.set i v, spare⟩ hl8
  simp only [] at hlong
  generalize hL : (Varint (List.take 8 (t.set i v))).1 = L at hlong
  -- the decisive implication
  have key : ∀ s, Signer.Verify H ⟨t.set i v, spare⟩ = some (s, true) →
      i < 8 + m.length ∧ L = (m.length : Int) ∧
        H ((t.set i v).take (8 + m.length)) = H (t.take (8 + m.length)) ∧
        (t.set i v).take (8 + m.length) ≠ t.take (8 + m.length) := by
    intro s hacc
    rw [hlong] at hacc
    by_cases c1 : L < 0
    · rw [if_pos c1] at hacc
      simp at hacc
    · by_cases c2 : L + 8 > ((t.set i v).length : Int)
      · rw [if_neg c1, if_pos c2] at hacc
        simp at hacc
      · rw [if_neg c1, if_neg c2] at hacc
        simp only [Option.some.injEq, Prod.mk.injEq, decide_eq_true_eq] at hacc
        obtain ⟨-, heq⟩ := hacc
        rw [List.length_set] at c2
        obtain ⟨n, hn⟩ : ∃ n : Nat, L + 8 = (n : Int) := ⟨(L + 8).toNat, by omega⟩
        rw [hn, Int.toNat_ofNat] at heq
        have hlen := congrArg List.length heq
        rw [List.length_drop, List.length_set, hk] at hlen
        have hn' : n = 8 + m.length := by omega
        subst hn'
        have hLm : L = (m.length : Int) := by omega
        by_cases hpos : i < 8 + m.length
        · have hd : (t.set i v).drop (8 + m.length) = t.drop (8 + m.length) :=
            List.drop_set_of_lt v t hpos
          rw [hd, hdrop] at heq
          refine ⟨hpos, hLm, ?_, ?_⟩
          · rw [← heq, htake]
          · intro hsame
            apply hne
            rw [← List.take_append_drop (8 + m.length) (t.set i v), hsame, hd,
              List.take_append_drop]
        · exfalso
          have htk : (t.set i v).take (8 + m.length) = t.take (8 + m.length) :=
            take_set_of_le v t (by omega)
          rw [htk, htake, ← hdrop] at heq
          apply hne
          rw [← List.take_append_drop (8 + m.length) (t.set i v), htk, heq,
            List.take_append_drop]
  have htotal : ∃ r, Signer.Verify H ⟨t.set i v, spare⟩ = some r := by
    rw [hlong]
    split
    · exact ⟨_, rfl⟩
    · split
      · exact ⟨_, rfl⟩
      · exact ⟨_, rfl⟩
  obtain ⟨⟨s, ok⟩, hr⟩ := htotal
  refine ⟨s, ok, hr, ?_, ?_⟩
  · intro hok
    subst hok
    exact key s hr
  · intro hge
    cases ok with
    | false => rfl
    | true =>
      have := (key s hr).1
      omega

theorem Signer_tamper_detection_witness :
    ((∀ x, (demoMAC x).length = 2) ∧
      ([104, 101, 108, 108, 111] : List Byte).length < 2 ^ 55 ∧
      Signer.Sign demoMAC [104, 101, 108, 108, 111]
        = some [10, 0, 0, 0, 0, 0, 0, 0, 104, 101, 108, 108, 111, 13, 53] ∧
      13 < ([10, 0, 0, 0, 0, 0, 0, 0, 104, 101, 108, 108, 111, 13, 53] : List Byte).length ∧
      ([10, 0, 0, 0, 0, 0, 0, 0, 104, 101, 108, 108, 111, 13, 53] : List Byte).get? 13
        ≠ some 14) ∧
    ∃ s ok, Signer.Verify demoMAC
        ⟨([10, 0, 0, 0, 0, 0, 0, 0, 104, 101, 108, 108, 111, 13, 53] : List Byte).set 13 14, []⟩
        = some (s, ok) ∧ ok = false :=
  ⟨⟨fun _ => rfl, by decide, by decide, by decide, by decide⟩,
    (Signer_tamper_detection demoMAC 2 (fun _ => rfl) [104, 101, 108, 108, 111] []
      [10, 0, 0, 0, 0, 0, 0, 0, 104, 101, 108, 108, 111, 13, 53] (by decide) (by decide)
      13 14 (by decide) (by decide)).imp fun _ h =>
        h.imp fun _ h2 => ⟨h2.1, h2.2.2 (by decide)⟩⟩

/-- C16 (counterexample). A token stamped exactly on the second 1700000000 and verified at
that very instant with a maximum age of zero is accepted: the elapsed time is zero, which is
not greater than zero. -/
theorem TimeSigner_zero_age_accepts_same_instant :
    TimeSigner.Sign demoMAC 1700000000000000000 [104, 101, 108, 108, 111]
      = some [26, 0, 0, 0, 0, 0, 0, 0, 128, 196, 159, 213, 12, 0, 0, 0,
              104, 101, 108, 108, 111, 21, 55] ∧
    TimeSigner.Verify demoMAC 1700000000000000000
        ⟨[26, 0, 0, 0, 0, 0, 0, 0, 128, 196, 159, 213, 12, 0, 0, 0,
          104, 101, 108, 108, 111, 21, 55], []⟩ 0
      = some (some ⟨[104, 101, 108, 108, 111], [21, 55]⟩, true) := by
  decide

/-- C16 (amended). Zero max age rejects every token verified strictly after its stamped
second: for every keyed hash, message `m`, signing clock `clock0` with stamp
`t0 = clock0 / 10^9` and verification clock later than `t0` seconds,
`TimeSigner.Verify (TimeSigner.Sign m) 0` returns `(nil, false)`.  The range hypotheses say
that payload and stamp fit their eight-byte varint fields. -/
theorem TimeSigner_zero_age_rejects (H : List Byte → List Byte) (m spare : List Byte)
    (clock0 clock : Int) (hm : 8 + m.length < 2 ^ 55)
    (h1 : -(2 ^ 55) ≤ clock0 / 1000000000) (h2 : clock0 / 1000000000 < 2 ^ 55)
    (hlater : clock0 / 1000000000 * 1000000000 < clock) :
    ∃ t, TimeSigner.Sign H clock0 m = some t ∧
      TimeSigner.Verify H clock ⟨t, spare⟩ 0 = some (none, false) := by
  obtain ⟨stamp, head, hsl, hsv, hh, hhv, hs⟩ := TimeSigner_Sign_shape H clock0 m hm h1 h2
  refine ⟨_, hs, ?_⟩
  rw [TimeSigner_Verify_stamped H stamp head m spare clock 0 hsl hh hhv, hsv]
  have := timeSince_pos clock (clock0 / 1000000000) h1 h2 hlater
  simp only [this, if_true]

theorem TimeSigner_zero_age_rejects_witness :
    (8 + ([104, 101, 108, 108, 111] : List Byte).length < 2 ^ 55 ∧
      -(2 ^ 55) ≤ (1700000000000000000 : Int) / 1000000000 ∧
      (1700000000000000000 : Int) / 1000000000 < 2 ^ 55 ∧
      (1700000000000000000 : Int) / 1000000000 * 1000000000 < 1700000000000000001) ∧
    ∃ t, TimeSigner.Sign demoMAC 1700000000000000000 [104, 101, 108, 108, 111] = some t ∧
      TimeSigner.Verify demoMAC 1700000000000000001 ⟨t, []⟩ 0 = some (none, false) :=
  ⟨⟨by decide, by decide, by decide, by decide⟩,
    TimeSigner_zero_age_rejects demoMAC [104, 101, 108, 108, 111] [] 1700000000000000000
      1700000000000000001 (by decide) (by decide) (by decide) (by decide)⟩

/-- C14 (behaviour of the code at the failing input). The plain binary token for the
five-byte message 80 C4 9F D5 0C (the varint of 1700000000) passes `Signer.Verify`, yet
`TimeSigner.Verify` of it, 30 seconds after that time and with a maximum age of one minute,
panics for every keyed hash and every capacity of the token slice: the payload is shorter
than the eight-byte stamp, so `msg[:8]` either exceeds the capacity or runs into the MAC
bytes, and in the latter case the age test passes and `msg[8:]` is out of range. -/
theorem TimeSigner_Verify_panics_on_short_payload (H : List Byte → List Byte)
    (spare : List Byte) :
    ∃ t, Signer.Sign H [128, 196, 159, 213, 12] = some t ∧
      (∃ rest, Signer.Verify H ⟨t, spare⟩ = some (some ⟨[128, 196, 159, 213, 12], rest⟩, true)) ∧
      TimeSigner.Verify H 1700000030000000000 ⟨t, spare⟩ 60000000000 = none := by
  obtain ⟨head, hh, hhv, hs⟩ := Signer_Sign_shape H [128, 196, 159, 213, 12] (by decide)
  have hv := Signer_Verify_framed H head [128, 196, 159, 213, 12] spare hh hhv
  refine ⟨_, hs, ⟨_, hv⟩, ?_⟩
  unfold TimeSigner.Verify
  rw [hv]
  simp only [Bool.not_true, Bool.false_eq_true, if_false, Option.getD_some]
  generalize H (head ++ [128, 196, 159, 213, 12]) ++ spare = tail
  have hs2 : Slice.slice ⟨[128, 196, 159, 213, 12], tail⟩ 8
      (Slice.len ⟨[128, 196, 159, 213, 12], tail⟩) = none := by
    unfold Slice.slice Slice.len
    simp
  by_cases hcap : (8 : Int) ≤ Slice.cap ⟨[128, 196, 159, 213, 12], tail⟩
  · have hs1 : Slice.slice ⟨[128, 196, 159, 213, 12], tail⟩ 0 8
        = some ⟨(128 : Byte) :: 196 :: 159 :: 213 :: 12 :: tail.take 3,
                ([128, 196, 159, 213, 12] ++ tail).drop 8⟩ := by
      unfold Slice.slice
      have c : (0 : Int) ≤ 0 ∧ (0 : Int) ≤ 8 ∧
          (8 : Int) ≤ Slice.cap ⟨[128, 196, 159, 213, 12], tail⟩ := ⟨le_refl _, by decide, hcap⟩
      simp only [c, and_self, if_true, Int.toNat_zero, List.drop_zero,
        show Int.toNat (8 : Int) = 8 from rfl]
      rfl
    have ht : ¬ (timeSince 1700000030000000000 (timeUnix 1700000000) > 60000000000) := by
      decide
    simp only [hs1, Varint_stamp_prefix, ht, if_false, hs2]
  · have hs1 : Slice.slice ⟨[128, 196, 159, 213, 12], tail⟩ 0 8 = none := by
      unfold Slice.slice
      have c : ¬ ((0 : Int) ≤ 0 ∧ (0 : Int) ≤ 8 ∧
          (8 : Int) ≤ Slice.cap ⟨[128, 196, 159, 213, 12], tail⟩) := fun h => hcap h.2.2
      simp only [c, if_false]
    simp only [hs1]

/-- C17 (counterexample). The token "hello.!.Bx4" passes `Base64Signer.Verify` under the
stand-in hash, its timestamp segment "!" is not base64, and `decodeTime` answers 0; verified
in 2023 with a maximum age of about sixty years it is accepted, because the time elapsed since
Unix time 0 is then not greater than the maximum age. -/
theorem Base64TimeSigner_accepts_unparseable_timestamp :
    Base64Signer.Verify demoMAC defaultSep
        ⟨[104, 101, 108, 108, 111, 46, 33, 46, 66, 120, 52], []⟩
      = some (some ⟨[104, 101, 108, 108, 111, 46, 33], [46, 66, 120, 52]⟩, true) ∧
    Base64Signer.base64Decode [33] = none ∧
    Base64TimeSigner.decodeTime [33] = 0 ∧
    Base64TimeSigner.Verify demoMAC defaultSep 1700000000000000000
        ⟨[104, 101, 108, 108, 111, 46, 33, 46, 66, 120, 52], []⟩ 1900000000000000000
      = some (some ⟨[104, 101, 108, 108, 111], [46, 33, 46, 66, 120, 52]⟩, true) := by
  decide

/-- C17 (amended). An unparseable timestamp counts as Unix time 0: for every token that
passes `Base64Signer.Verify` with a payload `m ++ [c] ++ ts` whose timestamp segment `ts`
(free of the separator `c`) fails base64url decoding, `decodeTime ts` is 0 and
`Base64TimeSigner.Verify` returns `(nil, false)` for every maximum age `dur` that is smaller
than the time elapsed since Unix time 0 (and than the largest `time.Duration`). -/
theorem Base64TimeSigner_unparseable_timestamp (H : List Byte → List Byte) (c : Byte)
    (b : Slice) (m ts rest : List Byte) (clock dur : Int)
    (hpass : Base64Signer.Verify H [c] b = some (some ⟨m ++ c :: ts, rest⟩, true))
    (hc : c ∉ ts) (hbad : Base64Signer.base64Decode ts = none)
    (hdur : dur < clock) (hmax : dur < maxDuration) :
    Base64TimeSigner.decodeTime ts = 0 ∧
    Base64TimeSigner.Verify H [c] clock b dur = some (none, false) := by
  have hd : Base64TimeSigner.decodeTime ts = 0 := by
    unfold Base64TimeSigner.decodeTime
    rw [hbad]
  refine ⟨hd, ?_⟩
  unfold Base64TimeSigner.Verify
  rw [hpass]
  simp only [Bool.not_true, Bool.false_eq_true, if_false, Option.getD_some,
    splitRight_append m ts rest c hc, hd]
  have := timeSince_epoch_zero clock dur hdur hmax
  simp only [this, if_true]

theorem Base64TimeSigner_unparseable_timestamp_witness :
    (Base64Signer.Verify demoMAC [46] ⟨[104, 101, 108, 108, 111, 46, 33, 46, 66, 120, 52], []⟩
        = some (some ⟨[104, 101, 108, 108, 111] ++ 46 :: [33], [46, 66, 120, 52]⟩, true) ∧
      (46 : Byte) ∉ ([33] : List Byte) ∧
      Base64Signer.base64Decode [33] = none ∧
      (60000000000 : Int) < 1700000000000000000 ∧ (60000000000 : Int) < maxDuration) ∧
    Base64TimeSigner.Verify demoMAC [46] 1700000000000000000
        ⟨[104, 101, 108, 108, 111, 46, 33, 46, 66, 120, 52], []⟩ 60000000000
      = some (none, false) :=
  ⟨⟨by decide, by decide, by decide, by decide, by decide⟩,
    (Base64TimeSigner_unparseable_timestamp demoMAC 46
      ⟨[104, 101, 108, 108, 111, 46, 33, 46, 66, 120, 52], []⟩ [104, 101, 108, 108, 111] [33]
      [46, 66, 120, 52] 1700000000000000000 60000000000 (by decide) (by decide) (by decide)
      (by decide) (by decide)).2⟩

end signer
